import Mathlib

/-!
Verification of the threshold secret-sharing repository.

The development embeds the two arithmetic schemes of the repository:

* the Shamir threshold codec over the prime field with modulus
  P = 2^32 - 5 = 4294967291 (file src/secret-share.ts, second half:
  mod, addm, subm, mulm, invm, evalPoly, split, reconstruct), with the
  JavaScript bigints embedded as ℤ and the injected randomness embedded
  as an explicit list of draws;

* the exact-rational secret codec (encode, decode in
  src/secret-share.ts, interpolate in src/interpolate.ts, and the two
  drafts of src/lib/polynomial.ts), with BigRational embedded as ℚ
  (always reduced, positive denominator) and the random sample points
  embedded as an explicit list of draws.

Strings produced by the render functions are built with the string
tweak chain of the source translated to structurally recursive
functions over lists of characters.
-/

set_option maxRecDepth 40000

/-! ### Shamir threshold codec over the prime field (src/secret-share.ts) -/

/-- Modulus of the prime field: the largest 32-bit prime, 2^32 - 5.
Source: `const P = 4294967291n`. -/
def P : ℤ := 4294967291

/-- A share is a pair of bigints (x, y).  Source: `type Share = { x: bigint; y: bigint }`. -/
abbrev Share := ℤ × ℤ

/-- Translation of the `mod` helper: JavaScript `%` on bigints is the
truncating remainder (sign of the dividend), embedded as `Int.tmod`;
a negative remainder is shifted up by `p`.
Source: `const r = a % p; return r >= 0n ? r : r + p`. -/
def mod (a : ℤ) (p : ℤ) : ℤ :=
  let r := a.tmod p
  if 0 ≤ r then r else r + p

/-- Translation of `addm`. -/
def addm (a b p : ℤ) : ℤ := mod (a + b) p

/-- Translation of `subm`. -/
def subm (a b p : ℤ) : ℤ := mod (a - b) p

/-- Translation of `mulm`. -/
def mulm (a b p : ℤ) : ℤ := mod (a * b) p

/-- Loop of the extended Euclidean algorithm inside `invm`.  The source
keeps `r` and `newR` as bigints; both start non-negative (`r = p`,
`newR = mod(a, p)`) and stay non-negative (truncating division and
remainder agree with the natural-number ones there), so they are
embedded as ℕ while the Bezout coefficients `t`, `newT` stay in ℤ.
Source: `while (newR !== 0n) { q = r / newR; [t, newT] = [newT, t - q*newT];
[r, newR] = [newR, r - q*newR]; }`. -/
def egcdLoop (t newT : ℤ) (r newR : ℕ) : ℤ × ℕ :=
  if h : newR = 0 then (t, r)
  else
    let q : ℕ := r / newR
    egcdLoop newT (t - (q : ℤ) * newT) newR (r % newR)
termination_by newR
decreasing_by exact Nat.mod_lt _ (Nat.pos_of_ne_zero h)

/-- Translation of `invm`: extended Euclid for the modular inverse; the
`throw` on `r !== 1n` is embedded as `none`.
Source: `if (r !== 1n) throw new Error("No inverse (a ≡ 0 mod p)");
return t < 0n ? t + p : t`. -/
def invm (a : ℤ) (p : ℤ) : Option ℤ :=
  let res := egcdLoop 0 1 p.toNat (mod a p).toNat
  if res.2 ≠ 1 then none
  else some (if res.1 < 0 then res.1 + p else res.1)

/-- Translation of `evalPoly`: Horner evaluation of the coefficient list
`[a0, a1, ..., ak]`, looping from the highest index down, which is a
right fold over the list.
Source: `for (let i = coeffs.length - 1; i >= 0; i--) y = addm(mulm(y, x, p), coeffs[i], p)`. -/
def evalPoly (coeffs : List ℤ) (x : ℤ) (p : ℤ) : ℤ :=
  coeffs.foldr (fun c y => addm (mulm y x p) c p) 0

/-- Translation of `split`.  The source draws `t - 1` random
coefficients from `randModP` (rejection sampling, values in `[0, p)`);
the randomness is embedded as the injected stream `draws`, of which the
first `t - 1` entries are consumed.  The two `throw`s are embedded as
`none`.  Shares are taken at x = 1, 2, ..., n. -/
def split (secret : ℤ) (n t : ℕ) (p : ℤ) (draws : List ℤ) : Option (List Share) :=
  if ¬ (0 ≤ secret ∧ secret < p) then none
  else if t < 2 ∨ n < t then none
  else
    let coeffs : List ℤ := mod secret p :: draws.take (t - 1)
    some ((List.range' 1 n).map (fun x : ℕ => ((x : ℤ), evalPoly coeffs (x : ℤ) p)))

/-- Translation of `reconstruct`: Lagrange evaluation at x = 0.  The
`throw` on an empty share list and the duplicate-abscissa check via the
set of `x.toString()` keys (equal strings exactly when the bigints are
equal) are embedded as `none` guards; the failing `invm` propagates as
`none` through the monadic fold.  For each index `i` the source loops
`j` over all indices distinct from `i`, multiplying `num` by
`mod(-xj, p)` and `den` by `subm(xi, xj, p)`; then
`li0 = mulm(num, invm(den, p), p)` and the accumulator becomes
`addm(acc, mulm(yi, li0, p), p)`. -/
def reconstruct (shares : List Share) (p : ℤ) : Option ℤ :=
  if shares.length = 0 then none
  else if ¬ (shares.map Prod.fst).Nodup then none
  else
    (List.range shares.length).foldlM
      (fun acc i =>
        let xi := (shares.getD i (0, 0)).1
        let yi := (shares.getD i (0, 0)).2
        let others := (List.range shares.length).filter (fun j => j ≠ i)
        let num := others.foldl (fun a j => mulm a (mod (-(shares.getD j (0, 0)).1) p) p) 1
        let den := others.foldl (fun a j => mulm a (subm xi (shares.getD j (0, 0)).1 p) p) 1
        (invm den p).map (fun dinv => addm acc (mulm yi (mulm num dinv p) p) p))
      0

/-- Abbreviation for the concrete residue field. -/
abbrev Fp := ZMod 4294967291

/-! ### Primality of the modulus

The kernel cannot check a trial-division certificate for a ten-digit
number, so primality is established through a Lucas certificate with
witness 2, using the factorisation P - 1 = 2 * 5 * 19 * 22605091; the
needed powers of the witness follow the square-and-multiply chain of
the exponent 22605091 (binary 1010110001110110100100011). -/

/-- Primality of 2^32 - 5, by the Lucas test with witness 2. -/
instance P_prime_fact : Fact (Nat.Prime 4294967291) := ⟨by
  have chain : ∀ x : ZMod 4294967291, x ^ 22605091 =
      ((((((((((((((((((((((((x) ^ 2) ^ 2 * x) ^ 2) ^ 2 * x) ^ 2 * x) ^ 2) ^ 2) ^ 2) ^ 2 * x) ^ 2 * x) ^ 2 * x) ^ 2) ^ 2 * x) ^ 2 * x) ^ 2) ^ 2 * x) ^ 2) ^ 2) ^ 2 * x) ^ 2) ^ 2) ^ 2) ^ 2 * x) ^ 2 * x :=
    fun x => by ring
  have h19 : Nat.Prime 19 := by norm_num
  have hq : Nat.Prime 22605091 := by norm_num
  apply lucas_primality 4294967291 ((2 : ZMod 4294967291))
  · show (2 : ZMod 4294967291) ^ (4294967291 - 1) = 1
    have h : 4294967291 - 1 = 190 * 22605091 := by norm_num
    rw [h, pow_mul, chain]
    decide
  · intro q hq' hdvd
    have hdvd' : q ∣ 2 * (5 * (19 * 22605091)) := by
      have h : 4294967291 - 1 = 2 * (5 * (19 * 22605091)) := by norm_num
      rwa [h] at hdvd
    have h5 : Nat.Prime 5 := by norm_num
    have h2 : Nat.Prime 2 := by norm_num
    rcases (Nat.Prime.dvd_mul hq').mp hdvd' with h | h
    · have hqe : q = 2 := (Nat.prime_dvd_prime_iff_eq hq' h2).mp h
      subst hqe
      have h : 4294967291 - 1 = 2 * (95 * 22605091) := by norm_num
      rw [h, Nat.mul_div_cancel_left _ (by norm_num), pow_mul, chain]
      decide
    rcases (Nat.Prime.dvd_mul hq').mp h with h | h
    · have hqe : q = 5 := (Nat.prime_dvd_prime_iff_eq hq' h5).mp h
      subst hqe
      have h : 4294967291 - 1 = 5 * (38 * 22605091) := by norm_num
      rw [h, Nat.mul_div_cancel_left _ (by norm_num), pow_mul, chain]
      decide
    rcases (Nat.Prime.dvd_mul hq').mp h with h | h
    · have hqe : q = 19 := (Nat.prime_dvd_prime_iff_eq hq' h19).mp h
      subst hqe
      have h : 4294967291 - 1 = 19 * (10 * 22605091) := by norm_num
      rw [h, Nat.mul_div_cancel_left _ (by norm_num), pow_mul, chain]
      decide
    · have hqe : q = 22605091 := (Nat.prime_dvd_prime_iff_eq hq' hq).mp h
      subst hqe
      have h : 4294967291 - 1 = 22605091 * 190 := by norm_num
      rw [h, Nat.mul_div_cancel_left _ (by norm_num)]
      decide⟩

/-! ### Exact-rational codec (src/lib/rational.ts, src/lib/polynomial.ts,
src/interpolate.ts, first half of src/secret-share.ts)

BigRational is embedded as ℚ.  Every arithmetic path of the source that
feeds a printed or decoded coefficient ends in an explicit `.reduce()`
call, so the embedded values being kept in reduced form (positive
denominator, coprime) matches the values the source observes. -/

/-- Translation of `toSimpleString` (src/lib/rational.ts).  With ℚ the
denominator is always positive, so the negative-denominator branches of
the source are unreachable here but kept for shape. -/
def toSimpleString (q : ℚ) : String :=
  let numerator : ℤ := q.num
  let denominator : ℤ := (q.den : ℤ)
  if denominator = 1 then toString numerator
  else if denominator = -1 then toString (-numerator)
  else if numerator < 0 ∧ denominator < 0 then
    toString (-numerator) ++ "/" ++ toString (-denominator)
  else toString numerator ++ "/" ++ toString denominator

/-- Translation of `toRational` on an existing rational (the source
returns it unchanged; the integer constructors are embedded as the
numeric casts into ℚ). -/
def toRational (q : ℚ) : ℚ := q

/-! String tweak chain of the two `print` functions.  JavaScript
`String.replace` with a plain-string pattern replaces only the first
occurrence; the regex tweaks are anchored or have fixed terminators, so
each is translated to a structurally recursive character-list function. -/

/-- First-occurrence replacement on character lists. -/
def listReplaceFirst (pat repl : List Char) : List Char → List Char
  | [] => []
  | c :: rest =>
    if pat.isPrefixOf (c :: rest) then repl ++ (c :: rest).drop pat.length
    else c :: listReplaceFirst pat repl rest

/-- JavaScript `s.replace(pat, repl)` for a plain string pattern. -/
def replaceFirst (s pat repl : String) : String :=
  String.mk (listReplaceFirst pat.toList repl.toList s.toList)

/-- Anchored tweak `replace(/ \+\s?$/, "")`: strip one trailing " + "
or " +" (the only whitespace these strings contain is a space). -/
def stripTrailingPlus (s : String) : String :=
  let l := s.toList
  if [' ', '+', ' '].isSuffixOf l then String.mk (l.take (l.length - 3))
  else if [' ', '+'].isSuffixOf l then String.mk (l.take (l.length - 2))
  else s

/-- Matcher for `replace(/\+\s*?\+/, "+")`: after a '+', lazily consume
whitespace until the next '+'. -/
def collapseAux : List Char → Option (List Char)
  | [] => none
  | c :: rest =>
    if c = '+' then some rest
    else if c = ' ' then collapseAux rest
    else none

/-- Tweak `replace(/\+\s*?\+/, "+")` (first occurrence only). -/
def collapsePlusPlus : List Char → List Char
  | [] => []
  | c :: rest =>
    if c = '+' then
      match collapseAux rest with
      | some rest2 => '+' :: rest2
      | none => c :: collapsePlusPlus rest
    else c :: collapsePlusPlus rest

/-- Matcher for the tail of `/ \/\s*?1x/`: lazily consume whitespace,
then expect "1x". -/
def slash1xAux : List Char → Option (List Char)
  | '1' :: 'x' :: rest => some rest
  | ' ' :: rest => slash1xAux rest
  | _ => none

/-- Scanner for the global tweak `replace(/ \/\s*?1x/g, "x")`; the fuel
argument (instantiated with the list length, an upper bound on the
number of steps) keeps the recursion structural. -/
def slash1xGo : ℕ → List Char → List Char
  | 0, l => l
  | Nat.succ fuel, l =>
    match l with
    | ' ' :: '/' :: rest =>
      (match slash1xAux rest with
        | some rest2 => 'x' :: slash1xGo fuel rest2
        | none => ' ' :: slash1xGo fuel ('/' :: rest))
    | c :: rest => c :: slash1xGo fuel rest
    | [] => []

/-- Tweak `replace(/ \/\s*?1x/g, "x")` (global). -/
def replaceSlash1xAll (s : String) : String :=
  String.mk (slash1xGo s.toList.length s.toList)

/-- Tweak `replace(/\+ 0$/, "")` of the sparse draft. -/
def stripTrailingPlusZero (s : String) : String :=
  let l := s.toList
  if ['+', ' ', '0'].isSuffixOf l then String.mk (l.take (l.length - 3)) else s

/-- JavaScript `trim()`. -/
def listTrim (l : List Char) : List Char :=
  ((l.dropWhile Char.isWhitespace).reverse.dropWhile Char.isWhitespace).reverse

/-! ### Dense polynomial draft (first half of src/lib/polynomial.ts) -/

namespace PolyDense

/-- Translation of `print` (dense draft): degree is the coefficient
count minus one (an integer, -1 for the empty list); a degree-0
polynomial prints its constant; otherwise the coefficients are
reversed, rendered highest-degree first with zero coefficients mapped
to empty strings, joined with " + ", and passed through the tweak
chain followed by `trim()`. -/
def print (coefficients : List ℚ) : String :=
  let degree : ℤ := (coefficients.length : ℤ) - 1
  if degree = 0 then toSimpleString (coefficients.getD 0 0)
  else
    let joined := String.intercalate " + "
      (coefficients.reverse.mapIdx (fun index c =>
        if c = toRational 0 then ""
        else toSimpleString c ++ "x^" ++ toString (degree - (index : ℤ))))
    let s1 := replaceFirst joined "+ -" "- "
    let s2 := replaceFirst s1 "x^0" ""
    let s3 := replaceFirst s2 "x^1" "x"
    let s4 := stripTrailingPlus s3
    let s5 := String.mk (collapsePlusPlus s4.toList)
    let s6 := replaceSlash1xAll s5
    let s7 := replaceFirst s6 "/ 1" ""
    String.mk (listTrim s7.toList)

/-- Translation of `multiplyWithRealNumber` (dense draft): multiply
every coefficient and reduce. -/
def multiplyWithRealNumber (polynomial : List ℚ) (number : ℚ) : List ℚ :=
  polynomial.map (fun coefficient => coefficient * number)

/-- Translation of `divideByRealNumber` (dense draft). -/
def divideByRealNumber (polynomial : List ℚ) (number : ℚ) : List ℚ :=
  polynomial.map (fun coefficient => coefficient / number)

/-- Translation of `multiply` (dense draft): the double loop
`coefficients[i+j] += p1[i] * p2[j]` over `i ≤ degree1`, `j ≤ degree2`
into an array of size `degree1 + degree2 + 1` denotes the convolution;
entry k is the sum over `i + j = k` (out-of-range reads contribute the
zero default). -/
def multiply (polynomial1 polynomial2 : List ℚ) : List ℚ :=
  (List.range (polynomial1.length + polynomial2.length - 1)).map
    (fun k => ((List.range (k + 1)).map
      (fun i => polynomial1.getD i 0 * polynomial2.getD (k - i) 0)).sum)

/-- Translation of `add` (dense draft): entrywise sum over an array of
size `max degree1 degree2 + 1`, missing entries defaulting to zero. -/
def add (polynomial1 polynomial2 : List ℚ) : List ℚ :=
  (List.range (max polynomial1.length polynomial2.length)).map
    (fun i => polynomial1.getD i 0 + polynomial2.getD i 0)

end PolyDense

/-! ### Sparse polynomial draft (second half of src/lib/polynomial.ts) -/

namespace PolySparse

/-- Translation of `newPolynomialFromPairs`: each (coefficient,
position) pair is passed through `toRational`. -/
def newPolynomialFromPairs (pairs : List (ℚ × ℕ)) : List (ℚ × ℕ) :=
  pairs.map (fun cp => (toRational cp.1, cp.2))

/-- Insertion step of the stable descending sort on positions used by
the sparse `print` (`sort((a, b) => b.position - a.position)`). -/
def insertPosDesc (x : ℚ × ℕ) : List (ℚ × ℕ) → List (ℚ × ℕ)
  | [] => [x]
  | y :: ys => if x.2 < y.2 then y :: insertPosDesc x ys else x :: y :: ys

/-- Stable descending sort on positions. -/
def sortPosDesc : List (ℚ × ℕ) → List (ℚ × ℕ)
  | [] => []
  | x :: xs => insertPosDesc x (sortPosDesc xs)

/-- Translation of `print` (sparse draft): sort by descending position,
render every pair (no zero filtering in this draft), join and run the
tweak chain, which here also ends with `replace(/\+ 0$/, "")`. -/
def print (polynomial : List (ℚ × ℕ)) : String :=
  let joined := String.intercalate " + "
    ((sortPosDesc polynomial).map (fun cp => toSimpleString cp.1 ++ "x^" ++ toString cp.2))
  let s1 := replaceFirst joined "+ -" "- "
  let s2 := replaceFirst s1 "x^0" ""
  let s3 := replaceFirst s2 "x^1" "x"
  let s4 := stripTrailingPlus s3
  let s5 := String.mk (collapsePlusPlus s4.toList)
  let s6 := replaceSlash1xAll s5
  let s7 := replaceFirst s6 "/ 1" ""
  let s8 := stripTrailingPlusZero s7
  String.mk (listTrim s8.toList)

/-- Translation of `multiplyWithRealNumber` (sparse draft). -/
def multiplyWithRealNumber (polynomial : List (ℚ × ℕ)) (number : ℚ) : List (ℚ × ℕ) :=
  polynomial.map (fun cp => (cp.1 * number, cp.2))

/-- Translation of `divideByRealNumber` (sparse draft). -/
def divideByRealNumber (polynomial : List (ℚ × ℕ)) (number : ℚ) : List (ℚ × ℕ) :=
  polynomial.map (fun cp => (cp.1 / number, cp.2))

/-- Translation of `multiply` (sparse draft): the source reads the i-th
and j-th pairs positionally (`coefficients[i]?.coefficient ?? 0`),
accumulates the convolution, filters out zero sums and then assigns
positions from the index in the filtered array (collapsing gaps — this
positional reindexing is what the source does, bug included). -/
def multiply (polynomial1 polynomial2 : List (ℚ × ℕ)) : List (ℚ × ℕ) :=
  let degree := (polynomial1.length - 1) + (polynomial2.length - 1)
  let coefficientsArray := (List.range (2 * degree + 1)).map
    (fun k => ((List.range (k + 1)).map
      (fun i => (polynomial1.getD i (0, 0)).1 * (polynomial2.getD (k - i) (0, 0)).1)).sum)
  (coefficientsArray.filter (fun c => c ≠ toRational 0)).mapIdx
    (fun position coefficient => (coefficient, position))

/-- Translation of `add` (sparse draft): positional entrywise sums,
zero sums filtered, positions reassigned from the filtered index. -/
def add (polynomial1 polynomial2 : List (ℚ × ℕ)) : List (ℚ × ℕ) :=
  let degree := max (polynomial1.length - 1) (polynomial2.length - 1)
  let coefficientsArray := (List.range (degree + 1)).map
    (fun i => (polynomial1.getD i (0, 0)).1 + (polynomial2.getD i (0, 0)).1)
  (coefficientsArray.filter (fun c => c ≠ toRational 0)).mapIdx
    (fun position coefficient => (coefficient, position))

/-- Modelled from the spec: `evaluate(p, x)` of src/lib/polynomial.ts
is imported by `encode` and the tests but missing from the sources
provided; per the spec it is the direct method, the sum of
coefficient times x to the stored degree over all stored terms. -/
def evaluate (polynomial : List (ℚ × ℕ)) (x : ℚ) : ℚ :=
  (polynomial.map (fun cp => cp.1 * x ^ cp.2)).sum

/-- Modelled from the spec: `coefficientAt(p, degree)` returns the
stored coefficient or the field's zero. -/
def coefficientAt (polynomial : List (ℚ × ℕ)) (d : ℕ) : ℚ :=
  match polynomial.find? (fun cp => cp.2 == d) with
  | some cp => cp.1
  | none => 0

/-- Modelled from the spec: `degree(p)` is the maximum stored degree,
or 0 for an empty polynomial. -/
def degree (polynomial : List (ℚ × ℕ)) : ℕ :=
  polynomial.foldr (fun cp m => max cp.2 m) 0

/-- Modelled from the spec: `evaluateHorner(p, x)` materialises the
dense (gap-filled) coefficient list for the slots 0..degree and folds
it from the highest degree down:
(((c_d)·x + c_(d-1))·x + ...)·x + c_0. -/
def evaluateHorner (polynomial : List (ℚ × ℕ)) (x : ℚ) : ℚ :=
  ((List.range (degree polynomial + 1)).map (coefficientAt polynomial)).foldr
    (fun c acc => acc * x + c) 0

end PolySparse

/-! ### Interpolation and the rational secret codec -/

/-- A point is a pair of rationals (src/lib/point.ts). -/
abbrev Point := ℚ × ℚ

/-- JavaScript `Array.reduce` without an initial value: throws on an
empty array (embedded as `none`), otherwise left-folds from the first
element. -/
def reduce1 {α : Type} (f : α → α → α) : List α → Option α
  | [] => none
  | x :: xs => some (xs.foldl f x)

/-- Collection of a list of fallible results: the first failure aborts
(the JavaScript loop throws at the first failing iteration). -/
def optionList {α : Type} : List (Option α) → Option (List α)
  | [] => some []
  | o :: os => o.bind (fun a => (optionList os).map (fun l => a :: l))

/-- Translation of `interpolate` (src/interpolate.ts): for each point i
build the degree-1 factors [(-1)·xj·d, d] with d = 1/(xi - xj) for
every j ≠ i, multiply them together with `reduce` (failing on a single
point, where the factor list is empty), scale by yi, and sum the
results with `reduce` (failing on an empty point list).  The dense
polynomial operations are the ones the file imports. -/
def interpolate (points : List Point) : Option (List ℚ) :=
  let n := points.length
  (optionList ((List.range n).map (fun i =>
    let xi := (points.getD i (0, 0)).1
    let yi := (points.getD i (0, 0)).2
    let multipliers := ((List.range n).filter (fun j => j ≠ i)).map (fun j =>
      let xj := (points.getD j (0, 0)).1
      let denominator := (1 : ℚ) / (xi - xj)
      [(-1 : ℚ) * xj * denominator, denominator])
    (reduce1 PolyDense.multiply multipliers).map
      (fun polynomial => PolyDense.multiplyWithRealNumber polynomial yi)))).bind
    (reduce1 PolyDense.add)

/-- Translation of `encode` (src/secret-share.ts): the secret string is
embedded as its list of UTF-16 code units (what `charCodeAt` yields,
each below 2^16); the `Math.floor(Math.random() * 100)` draws are
embedded as the injected stream `randomDraws` of rationals, of which
one per character is consumed.  A secret longer than 6 characters
throws (none). -/
def encode (secret : List ℕ) (randomDraws : List ℚ) : Option (List Point) :=
  if 6 < secret.length then none
  else
    let rationals : List ℚ := secret.map (fun c : ℕ => ((c : ℤ) : ℚ))
    let polynomial := PolySparse.newPolynomialFromPairs
      (rationals.mapIdx (fun index rational => (rational, index)))
    let degree : ℤ := (rationals.length : ℤ) - 1
    let secretValueCount : ℕ := (degree + 1).toNat
    let randomRationals := randomDraws.take secretValueCount
    some (randomRationals.map (fun r => (r, PolySparse.evaluate polynomial r)))

/-- Composite of the per-coefficient decoding step of `decode`:
`String.fromCharCode(parseInt(toSimpleString(c)))`.  `toSimpleString`
renders "num" or "num/den"; `parseInt` reads the leading integer, the
numerator; `fromCharCode` applies ToUint16, reduction modulo 2^16.
(The double rounding `parseInt` applies beyond 2^53 is not modelled;
the claims about `decode` are settled at small coefficients.) -/
def charOfCoefficient (c : ℚ) : ℕ := (c.num % 65536).toNat

/-- Translation of `decode` (src/secret-share.ts): interpolate the
points and map every coefficient of the resulting polynomial, in
ascending degree order, through the character decoding step. -/
def decode (points : List Point) : Option (List ℕ) :=
  (interpolate points).map (fun polynomial => polynomial.map charOfCoefficient)

/-- Coefficient array left inside the operand after the dense `print`
returns: on the non-constant branch the source calls
`coefficients.reverse()`, the in-place JavaScript reverse, so the
polynomial's stored coefficient array is reversed as a side effect of
rendering; the degree-0 branch returns before reversing.  (The sparse
`print` similarly re-sorts its operand in place via `sort`.) -/
def printResidue (coefficients : List ℚ) : List ℚ :=
  let degree : ℤ := (coefficients.length : ℤ) - 1
  if degree = 0 then coefficients else coefficients.reverse

/-- Denominator product accumulated by the inner loop of `reconstruct`
for index `i` (written as the same fold as in the translation). -/
def denom (shares : List Share) (i : ℕ) : ℤ :=
  ((List.range shares.length).filter (fun j => j ≠ i)).foldl
    (fun a j => mulm a (subm (shares.getD i (0, 0)).1 (shares.getD j (0, 0)).1 P) P) 1

/-- Numerator product accumulated by the inner loop of `reconstruct`
for index `i`. -/
def numer (shares : List Share) (i : ℕ) : ℤ :=
  ((List.range shares.length).filter (fun j => j ≠ i)).foldl
    (fun a j => mulm a (mod (-(shares.getD j (0, 0)).1) P) P) 1

/-- Lagrange evaluation at zero, expressed in the residue field: the
value that `reconstruct` computes (before reducing back to an integer
representative). -/
noncomputable def lagrangeAtZero (shares : List Share) : Fp :=
  ∑ i ∈ Finset.range shares.length,
    ((shares.getD i (0, 0)).2 : Fp) *
      ((∏ j ∈ (Finset.range shares.length).erase i, (-((shares.getD j (0, 0)).1 : Fp))) *
       (∏ j ∈ (Finset.range shares.length).erase i,
          (((shares.getD i (0, 0)).1 : Fp) - ((shares.getD j (0, 0)).1 : Fp)))⁻¹)

/-- Polynomial denoted by a coefficient list in ascending-degree order. -/
noncomputable def coeffsPoly {R : Type} [Semiring R] (l : List R) : Polynomial R :=
  l.foldr (fun c p => Polynomial.C c + p * Polynomial.X) 0

/-- The degree-1 factor lists built by `interpolate` for index `i`
(the loop body over `j ≠ i`, written without the intermediate lets). -/
def lagMultipliers (points : List Point) (i : ℕ) : List (List ℚ) :=
  ((List.range points.length).filter (fun j => j ≠ i)).map (fun j =>
    [(-1 : ℚ) * (points.getD j (0, 0)).1 *
        ((1 : ℚ) / ((points.getD i (0, 0)).1 - (points.getD j (0, 0)).1)),
      (1 : ℚ) / ((points.getD i (0, 0)).1 - (points.getD j (0, 0)).1)])

/-- The i-th summand built by `interpolate`: the product of the factor
lists (folded from the first factor), scaled by y_i. -/
def lagAdder (points : List Point) (i : ℕ) : List ℚ :=
  PolyDense.multiplyWithRealNumber
    ((lagMultipliers points i).tail.foldl PolyDense.multiply (lagMultipliers points i).headI)
    (points.getD i (0, 0)).2

/-! ### Theorems -/

/-- Primality of the modulus as a plain theorem. -/
theorem P_prime : Nat.Prime 4294967291 := P_prime_fact.out

/-! ### Basic properties of the `mod` helper -/

/-- Negated truncating remainder. -/
theorem neg_tmod_eq (a b : ℤ) : (-a).tmod b = -(a.tmod b) := by
  have h1 := Int.tdiv_add_tmod a b
  have h2 := Int.tdiv_add_tmod (-a) b
  rw [Int.neg_tdiv] at h2
  linarith

/-- The `mod` helper agrees with the Euclidean remainder for a positive
modulus. -/
theorem mod_eq_emod (a : ℤ) {p : ℤ} (hp : 0 < p) : mod a p = a % p := by
  have hdvd : p ∣ a - a.tmod p := by
    have h := Int.tdiv_add_tmod a p
    exact ⟨a.tdiv p, by linarith⟩
  have hlow : -p < a.tmod p := by
    rcases le_or_lt 0 a with ha | ha
    · have := Int.tmod_nonneg p ha
      linarith
    · have hlt : (-a).tmod p < p := Int.tmod_lt_of_pos (-a) hp
      rw [neg_tmod_eq] at hlt
      linarith
  have hhigh : a.tmod p < p := Int.tmod_lt_of_pos a hp
  unfold mod
  by_cases hr : 0 ≤ a.tmod p
  · simp only [hr, if_true]
    have : a % p = a.tmod p % p := by
      conv_lhs => rw [show a = a.tmod p + p * (a.tdiv p) from by linarith [Int.tdiv_add_tmod a p]]
      rw [Int.add_mul_emod_self_left]
    rw [this, Int.emod_eq_of_lt hr hhigh]
  · simp only [hr, if_false]
    push_neg at hr
    have : a % p = (a.tmod p + p) % p := by
      conv_lhs => rw [show a = (a.tmod p + p) + p * (a.tdiv p - 1) from by linarith [Int.tdiv_add_tmod a p]]
      rw [Int.add_mul_emod_self_left]
    rw [this, Int.emod_eq_of_lt (by linarith) (by linarith)]

/-- Range of the `mod` helper. -/
theorem mod_range (a : ℤ) {p : ℤ} (hp : 0 < p) : 0 ≤ mod a p ∧ mod a p < p := by
  rw [mod_eq_emod a hp]
  exact ⟨Int.emod_nonneg a (ne_of_gt hp), Int.emod_lt_of_pos a hp⟩

/-- Cast of the `mod` helper into the corresponding residue ring. -/
theorem mod_cast_zmod (a : ℤ) {pn : ℕ} (hpn : 0 < pn) :
    ((mod a (pn : ℤ) : ℤ) : ZMod pn) = (a : ZMod pn) := by
  rw [mod_eq_emod a (by exact_mod_cast hpn)]
  rw [ZMod.intCast_eq_intCast_iff]
  exact Int.emod_emod_of_dvd a dvd_rfl

/-! ### Casting the modular helpers into `ZMod` -/

/-- Cast of `addm`. -/
theorem addm_cast (a b : ℤ) {pn : ℕ} (hpn : 0 < pn) :
    ((addm a b (pn : ℤ) : ℤ) : ZMod pn) = (a : ZMod pn) + (b : ZMod pn) := by
  unfold addm
  rw [mod_cast_zmod _ hpn]
  push_cast
  ring

/-- Cast of `subm`. -/
theorem subm_cast (a b : ℤ) {pn : ℕ} (hpn : 0 < pn) :
    ((subm a b (pn : ℤ) : ℤ) : ZMod pn) = (a : ZMod pn) - (b : ZMod pn) := by
  unfold subm
  rw [mod_cast_zmod _ hpn]
  push_cast
  ring

/-- Cast of `mulm`. -/
theorem mulm_cast (a b : ℤ) {pn : ℕ} (hpn : 0 < pn) :
    ((mulm a b (pn : ℤ) : ℤ) : ZMod pn) = (a : ZMod pn) * (b : ZMod pn) := by
  unfold mulm
  rw [mod_cast_zmod _ hpn]
  push_cast
  ring

/-- Cast of `evalPoly`: the fold computes the Horner value of the cast
coefficient list in the residue ring. -/
theorem evalPoly_cast (coeffs : List ℤ) (x : ℤ) {pn : ℕ} (hpn : 0 < pn) :
    ((evalPoly coeffs x (pn : ℤ) : ℤ) : ZMod pn) =
      (coeffs.map (Int.cast : ℤ → ZMod pn)).foldr (fun c y => y * (x : ZMod pn) + c) 0 := by
  unfold evalPoly
  induction coeffs with
  | nil => simp
  | cons c rest ih =>
    simp only [List.foldr_cons, List.map_cons]
    rw [addm_cast _ _ hpn, mulm_cast _ _ hpn, ih]

/-! ### Correctness of the extended Euclidean loop -/

/-- Single unfolding of `egcdLoop`. -/
theorem egcdLoop_eq (t newT : ℤ) (r newR : ℕ) :
    egcdLoop t newT r newR =
      if newR = 0 then (t, r)
      else egcdLoop newT (t - ((r / newR : ℕ) : ℤ) * newT) newR (r % newR) := by
  rw [egcdLoop]
  by_cases h : newR = 0 <;> simp [h]

/-- The second component of `egcdLoop` is the greatest common divisor
of its two numeric arguments. -/
theorem egcdLoop_gcd (newR : ℕ) : ∀ (r : ℕ) (t newT : ℤ),
    (egcdLoop t newT r newR).2 = Nat.gcd newR r := by
  induction newR using Nat.strong_induction_on with
  | _ newR ih =>
    intro r t newT
    rw [egcdLoop_eq]
    by_cases h : newR = 0
    · subst h
      simp
    · rw [if_neg h, ih (r % newR) (Nat.mod_lt _ (Nat.pos_of_ne_zero h)) newR]
      exact (Nat.gcd_rec newR r).symm

/-- Bezout invariant of `egcdLoop` in the residue ring: if both running
remainders are congruent to their Bezout coefficient times `a`, so is
the result. -/
theorem egcdLoop_bezout {pn : ℕ} (a : ZMod pn) (newR : ℕ) : ∀ (r : ℕ) (t newT : ℤ),
    ((r : ZMod pn) = (t : ZMod pn) * a) → ((newR : ZMod pn) = (newT : ZMod pn) * a) →
    ((egcdLoop t newT r newR).1 : ZMod pn) * a = ((egcdLoop t newT r newR).2 : ZMod pn) := by
  induction newR using Nat.strong_induction_on with
  | _ newR ih =>
    intro r t newT h1 h2
    rw [egcdLoop_eq]
    by_cases h : newR = 0
    · rw [if_pos h]
      exact h1.symm
    · rw [if_neg h]
      refine ih (r % newR) (Nat.mod_lt _ (Nat.pos_of_ne_zero h)) newR _ _ h2 ?_
      generalize hq : r / newR = q
      have hsplit : (r % newR : ℕ) + newR * q = r := by rw [← hq]; exact Nat.mod_add_div r newR
      have hcast : ((r % newR : ℕ) : ZMod pn) = (r : ZMod pn) - (newR : ZMod pn) * (q : ZMod pn) := by
        have h2c := congrArg (fun m : ℕ => (m : ZMod pn)) hsplit
        push_cast at h2c
        linear_combination h2c
      rw [hcast, h1, h2]
      push_cast
      ring

/-! ### Specification of `invm` at the modulus P -/

/-- Cast of the natural remainder fed into `egcdLoop` by `invm`. -/
theorem mod_toNat_cast (a : ℤ) :
    (((mod a P).toNat : ℕ) : Fp) = (a : Fp) := by
  have hge : 0 ≤ mod a P := (mod_range a (by norm_num [P])).1
  have h1 : (((mod a P).toNat : ℕ) : ℤ) = mod a P := Int.toNat_of_nonneg hge
  have h2 : (((mod a P).toNat : ℕ) : Fp) = (((mod a P).toNat : ℤ) : Fp) := by
    push_cast
    rfl
  rw [h2, h1]
  have h3 : (P : ℤ) = ((4294967291 : ℕ) : ℤ) := by norm_num [P]
  rw [show mod a P = mod a ((4294967291 : ℕ) : ℤ) from by rw [← h3]]
  exact mod_cast_zmod a (by norm_num)

/-- Success case of `invm`: for an argument that is a unit modulo P the
function returns a Bezout coefficient, and its cast is the inverse in
the field. -/
theorem invm_spec {a : ℤ} (ha : (a : Fp) ≠ 0) :
    ∃ b : ℤ, invm a P = some b ∧ (b : Fp) = (a : Fp)⁻¹ := by
  have hm_lt : (mod a P).toNat < 4294967291 := by
    have h1 := (mod_range a (show (0:ℤ) < P from by norm_num [P])).2
    have h0 := (mod_range a (show (0:ℤ) < P from by norm_num [P])).1
    have hP : (P : ℤ) = 4294967291 := rfl
    omega
  have hm_cast : (((mod a P).toNat : ℕ) : Fp) = (a : Fp) := mod_toNat_cast a
  have hgcd : (egcdLoop 0 1 P.toNat (mod a P).toNat).2 = Nat.gcd ((mod a P).toNat) 4294967291 := by
    rw [show P.toNat = 4294967291 from rfl]
    exact egcdLoop_gcd _ _ _ _
  have hcop : Nat.gcd ((mod a P).toNat) 4294967291 = 1 := by
    rw [Nat.gcd_comm]
    refine (Nat.Prime.coprime_iff_not_dvd P_prime).mpr ?_
    intro hdvd
    have hz : (mod a P).toNat = 0 := Nat.eq_zero_of_dvd_of_lt hdvd hm_lt
    rw [hz] at hm_cast
    simp at hm_cast
    exact ha hm_cast.symm
  have hbez : ((egcdLoop 0 1 P.toNat (mod a P).toNat).1 : Fp) * (a : Fp) =
      ((egcdLoop 0 1 P.toNat (mod a P).toNat).2 : Fp) := by
    rw [show P.toNat = 4294967291 from rfl]
    refine egcdLoop_bezout (a : Fp) _ _ _ _ ?_ ?_
    · rw [ZMod.natCast_self]
      push_cast
      ring
    · rw [hm_cast]
      push_cast
      ring
  rw [hgcd, hcop] at hbez
  have hone : ((1 : ℕ) : Fp) = 1 := by norm_num
  rw [hone] at hbez
  refine ⟨if (egcdLoop 0 1 P.toNat (mod a P).toNat).1 < 0
      then (egcdLoop 0 1 P.toNat (mod a P).toNat).1 + P
      else (egcdLoop 0 1 P.toNat (mod a P).toNat).1, ?_, ?_⟩
  · simp only [invm]
    rw [hgcd, hcop]
    simp
  · generalize htres : (egcdLoop 0 1 P.toNat (mod a P).toNat).1 = tres at hbez ⊢
    have hcast : ((if tres < 0 then tres + P else tres : ℤ) : Fp) = (tres : Fp) := by
      by_cases hlt : tres < 0
      · rw [if_pos hlt]
        push_cast
        rw [show ((P : ℤ) : Fp) = ((4294967291 : ℕ) : Fp) from by push_cast; rfl]
        rw [ZMod.natCast_self]
        ring
      · rw [if_neg hlt]
    rw [hcast]
    exact eq_inv_of_mul_eq_one_left hbez

/-- Failure case of `invm`: an argument divisible by P has no inverse
and the function reports the error. -/
theorem invm_none {a : ℤ} (ha : (a : Fp) = 0) : invm a P = none := by
  have hm_lt : (mod a P).toNat < 4294967291 := by
    have h1 := (mod_range a (show (0:ℤ) < P from by norm_num [P])).2
    have h0 := (mod_range a (show (0:ℤ) < P from by norm_num [P])).1
    have hP : (P : ℤ) = 4294967291 := rfl
    omega
  have hm_cast : (((mod a P).toNat : ℕ) : Fp) = (a : Fp) := mod_toNat_cast a
  have hz : (mod a P).toNat = 0 := by
    rw [ha] at hm_cast
    have hdvd : 4294967291 ∣ (mod a P).toNat :=
      (ZMod.natCast_zmod_eq_zero_iff_dvd _ _).mp hm_cast
    exact Nat.eq_zero_of_dvd_of_lt hdvd hm_lt
  unfold invm
  rw [hz, show P.toNat = 4294967291 from rfl, egcdLoop_eq, if_pos rfl]
  norm_num

/-! ### Casts specialised to the modulus P -/

/-- Cast of `mod` at P. -/
theorem mod_cast_P (a : ℤ) : ((mod a P : ℤ) : Fp) = (a : Fp) :=
  @mod_cast_zmod a 4294967291 (by norm_num)

/-- Cast of `addm` at P. -/
theorem addm_cast_P (a b : ℤ) : ((addm a b P : ℤ) : Fp) = (a : Fp) + (b : Fp) :=
  @addm_cast a b 4294967291 (by norm_num)

/-- Cast of `subm` at P. -/
theorem subm_cast_P (a b : ℤ) : ((subm a b P : ℤ) : Fp) = (a : Fp) - (b : Fp) :=
  @subm_cast a b 4294967291 (by norm_num)

/-- Cast of `mulm` at P. -/
theorem mulm_cast_P (a b : ℤ) : ((mulm a b P : ℤ) : Fp) = (a : Fp) * (b : Fp) :=
  @mulm_cast a b 4294967291 (by norm_num)

/-! ### Fold and sum bridges -/

/-- Cast of a `mulm` accumulation into a product in the field. -/
theorem foldl_mulm_cast {α : Type} (g : α → ℤ) (l : List α) :
    ∀ init : ℤ, ((l.foldl (fun a j => mulm a (g j) P) init : ℤ) : Fp)
      = (init : Fp) * (l.map (fun j => ((g j : ℤ) : Fp))).prod := by
  induction l with
  | nil => intro init; simp
  | cons j rest ih =>
    intro init
    simp only [List.foldl_cons, List.map_cons, List.prod_cons]
    rw [ih, mulm_cast_P]
    ring

/-- Cast of an `addm` accumulation into a sum in the field. -/
theorem foldl_addm_cast {α : Type} (g : α → ℤ) (l : List α) :
    ∀ init : ℤ, ((l.foldl (fun a j => addm a (g j) P) init : ℤ) : Fp)
      = (init : Fp) + (l.map (fun j => ((g j : ℤ) : Fp))).sum := by
  induction l with
  | nil => intro init; simp
  | cons j rest ih =>
    intro init
    simp only [List.foldl_cons, List.map_cons, List.sum_cons]
    rw [ih, addm_cast_P]
    ring

/-- Range of an `addm` accumulation. -/
theorem foldl_addm_range {α : Type} (g : α → ℤ) (l : List α) :
    ∀ init : ℤ, 0 ≤ init → init < P →
      0 ≤ l.foldl (fun a j => addm a (g j) P) init ∧
        l.foldl (fun a j => addm a (g j) P) init < P := by
  induction l with
  | nil => intro init h0 h1; exact ⟨h0, h1⟩
  | cons j rest ih =>
    intro init h0 h1
    simp only [List.foldl_cons]
    have hr := mod_range (init + g j) (show (0:ℤ) < P from by norm_num [P])
    exact ih _ hr.1 hr.2

/-- A monadic fold over `Option` whose steps all succeed computes the
plain fold of the successful values. -/
theorem foldlM_eq_foldl {α : Type} (f : ℤ → α → Option ℤ) (g : ℤ → α → ℤ) :
    ∀ (l : List α) (init : ℤ), (∀ acc : ℤ, ∀ i ∈ l, f acc i = some (g acc i)) →
      l.foldlM f init = some (l.foldl g init) := by
  intro l
  induction l with
  | nil => intro init h; rfl
  | cons j rest ih =>
    intro init h
    rw [List.foldlM_cons, h init j (List.mem_cons_self j rest)]
    simp only [Option.bind_eq_bind, Option.some_bind]
    exact ih _ (fun acc i hi => h acc i (List.mem_cons_of_mem j hi))

/-- Filtering an index away and mapping is the same as mapping an
if-neutralised function. -/
theorem filter_ne_map_prod {M : Type} [CommMonoid M] (i : ℕ) (f : ℕ → M) :
    ∀ l : List ℕ, ((l.filter (fun j => j ≠ i)).map f).prod
      = (l.map (fun j => if j = i then 1 else f j)).prod := by
  intro l
  induction l with
  | nil => rfl
  | cons j rest ih =>
    rw [List.filter_cons]
    by_cases hj : j = i
    · subst hj
      rw [if_neg (by simp)]
      simp only [ne_eq, decide_not] at ih
      simp [ih]
    · rw [if_pos (by simp [hj])]
      simp only [List.map_cons, List.prod_cons, if_neg hj]
      rw [ih]

/-- Product of a mapped range as a `Finset` product. -/
theorem range_map_prod {M : Type} [CommMonoid M] (f : ℕ → M) :
    ∀ n : ℕ, ((List.range n).map f).prod = ∏ j ∈ Finset.range n, f j := by
  intro n
  induction n with
  | zero => rfl
  | succ n ih =>
    rw [List.range_succ, List.map_append, List.prod_append, Finset.prod_range_succ, ih]
    simp

/-- Sum of a mapped range as a `Finset` sum. -/
theorem range_map_sum {M : Type} [AddCommMonoid M] (f : ℕ → M) :
    ∀ n : ℕ, ((List.range n).map f).sum = ∑ j ∈ Finset.range n, f j := by
  intro n
  induction n with
  | zero => rfl
  | succ n ih =>
    rw [List.range_succ, List.map_append, List.sum_append, Finset.sum_range_succ, ih]
    simp

/-- Neutralising one index of a product is the same as erasing it. -/
theorem prod_ite_erase {M : Type} [CommMonoid M] (n i : ℕ) (f : ℕ → M) :
    (∏ j ∈ Finset.range n, if j = i then 1 else f j) = ∏ j ∈ (Finset.range n).erase i, f j := by
  have h1 : ∏ j ∈ (Finset.range n).erase i, (if j = i then 1 else f j)
      = ∏ j ∈ Finset.range n, (if j = i then 1 else f j) :=
    Finset.prod_erase _ (if_pos rfl)
  have h2 : ∏ j ∈ (Finset.range n).erase i, (if j = i then 1 else f j)
      = ∏ j ∈ (Finset.range n).erase i, f j :=
    Finset.prod_congr rfl (fun j hj => if_neg (Finset.mem_erase.mp hj).1)
  rw [← h1, h2]

/-- The inner loops of `reconstruct` (a fold over the indices distinct
from `i`) cast to a product over the erased index range. -/
theorem filter_range_prod_erase {M : Type} [CommMonoid M] (n i : ℕ) (f : ℕ → M) :
    (((List.range n).filter (fun j => j ≠ i)).map f).prod = ∏ j ∈ (Finset.range n).erase i, f j := by
  rw [filter_ne_map_prod, range_map_prod, prod_ite_erase n i]

/-! ### Value computed by `reconstruct` -/

/-- With the two guards passed, `reconstruct` is the monadic fold over
the indices, phrased with `denom` and `numer`. -/
theorem reconstruct_eq_foldlM (shares : List Share)
    (hne : ¬ shares.length = 0) (hnd : (shares.map Prod.fst).Nodup) :
    reconstruct shares P = (List.range shares.length).foldlM
      (fun acc i => (invm (denom shares i) P).map
        (fun dinv => addm acc (mulm (shares.getD i (0, 0)).2 (mulm (numer shares i) dinv P) P) P)) 0 := by
  simp only [reconstruct, if_neg hne]
  rw [if_neg (not_not_intro hnd)]
  rfl

/-- Cast of `denom`. -/
theorem denom_cast (shares : List Share) (i : ℕ) :
    ((denom shares i : ℤ) : Fp) = ∏ j ∈ (Finset.range shares.length).erase i,
      (((shares.getD i (0, 0)).1 : Fp) - ((shares.getD j (0, 0)).1 : Fp)) := by
  unfold denom
  rw [foldl_mulm_cast]
  rw [filter_range_prod_erase shares.length i
    (fun j => ((subm (shares.getD i (0, 0)).1 (shares.getD j (0, 0)).1 P : ℤ) : Fp))]
  simp only [Int.cast_one, one_mul]
  exact Finset.prod_congr rfl (fun j _ => subm_cast_P _ _)

/-- Cast of `numer`. -/
theorem numer_cast (shares : List Share) (i : ℕ) :
    ((numer shares i : ℤ) : Fp) = ∏ j ∈ (Finset.range shares.length).erase i,
      (-((shares.getD j (0, 0)).1 : Fp)) := by
  unfold numer
  rw [foldl_mulm_cast]
  rw [filter_range_prod_erase shares.length i
    (fun j => ((mod (-(shares.getD j (0, 0)).1) P : ℤ) : Fp))]
  simp only [Int.cast_one, one_mul]
  refine Finset.prod_congr rfl (fun j _ => ?_)
  rw [mod_cast_P]
  push_cast
  ring

/-- Abscissas distinct in the field make every denominator a unit. -/
theorem denom_ne_zero (shares : List Share) (i : ℕ) (hi : i < shares.length)
    (hinj : ∀ a b : ℕ, a < shares.length → b < shares.length → a ≠ b →
      ((shares.getD a (0, 0)).1 : Fp) ≠ ((shares.getD b (0, 0)).1 : Fp)) :
    ((denom shares i : ℤ) : Fp) ≠ 0 := by
  rw [denom_cast]
  refine Finset.prod_ne_zero_iff.mpr (fun j hj => ?_)
  have hji := Finset.mem_erase.mp hj
  have hjlt := Finset.mem_range.mp hji.2
  exact sub_ne_zero.mpr (hinj i j hi hjlt (fun he => hji.1 he.symm))

/-- Main computation: with at least one share, pairwise-distinct
abscissas, and abscissas that stay distinct in the residue field,
`reconstruct` succeeds and returns the canonical representative of the
Lagrange evaluation at zero. -/
theorem reconstruct_some (shares : List Share)
    (hne : ¬ shares.length = 0)
    (hnd : (shares.map Prod.fst).Nodup)
    (hinj : ∀ a b : ℕ, a < shares.length → b < shares.length → a ≠ b →
      ((shares.getD a (0, 0)).1 : Fp) ≠ ((shares.getD b (0, 0)).1 : Fp)) :
    reconstruct shares P = some (((lagrangeAtZero shares).val : ℤ)) := by
  rw [reconstruct_eq_foldlM shares hne hnd]
  have hstep : ∀ acc : ℤ, ∀ i ∈ List.range shares.length,
      (invm (denom shares i) P).map
        (fun dinv => addm acc (mulm (shares.getD i (0, 0)).2 (mulm (numer shares i) dinv P) P) P)
      = some (addm acc (mulm (shares.getD i (0, 0)).2
          (mulm (numer shares i) ((invm (denom shares i) P).getD 0) P) P) P) := by
    intro acc i hi
    obtain ⟨b, hb, _⟩ := invm_spec (denom_ne_zero shares i (List.mem_range.mp hi) hinj)
    rw [hb]
    rfl
  rw [foldlM_eq_foldl _ _ _ 0 hstep]
  congr 1
  have hrange := foldl_addm_range
    (fun i => mulm (shares.getD i (0, 0)).2
      (mulm (numer shares i) ((invm (denom shares i) P).getD 0) P) P)
    (List.range shares.length) 0 le_rfl (by norm_num [P])
  have hcast : (((List.range shares.length).foldl
      (fun acc i => addm acc (mulm (shares.getD i (0, 0)).2
        (mulm (numer shares i) ((invm (denom shares i) P).getD 0) P) P) P) 0 : ℤ) : Fp)
      = lagrangeAtZero shares := by
    rw [foldl_addm_cast]
    simp only [Int.cast_zero, zero_add]
    rw [range_map_sum (fun i => ((mulm (shares.getD i (0, 0)).2
      (mulm (numer shares i) ((invm (denom shares i) P).getD 0) P) P : ℤ) : Fp))]
    unfold lagrangeAtZero
    refine Finset.sum_congr rfl (fun i hi => ?_)
    obtain ⟨b, hb, hbinv⟩ := invm_spec (denom_ne_zero shares i (Finset.mem_range.mp hi) hinj)
    rw [mulm_cast_P, mulm_cast_P, numer_cast, hb]
    simp only [Option.getD_some]
    rw [hbinv, denom_cast]
  generalize hv : (List.range shares.length).foldl
      (fun acc i => addm acc (mulm (shares.getD i (0, 0)).2
        (mulm (numer shares i) ((invm (denom shares i) P).getD 0) P) P) P) 0 = v at hcast hrange
  rw [← hcast, ZMod.val_intCast]
  have hPlit : ((4294967291 : ℕ) : ℤ) = P := rfl
  rw [hPlit]
  exact (Int.emod_eq_of_lt hrange.1 hrange.2).symm

/-! ### Dense coefficient lists as polynomials -/

/-- Evaluation of `coeffsPoly` is the Horner fold. -/
theorem coeffsPoly_eval {R : Type} [CommSemiring R] (l : List R) (x : R) :
    (coeffsPoly l).eval x = l.foldr (fun c y => y * x + c) 0 := by
  unfold coeffsPoly
  induction l with
  | nil => simp
  | cons c rest ih =>
    simp only [List.foldr_cons, Polynomial.eval_add, Polynomial.eval_C, Polynomial.eval_mul,
      Polynomial.eval_X, ih]
    ring

/-- Coefficients of `coeffsPoly` are the list entries. -/
theorem coeffsPoly_coeff {R : Type} [Semiring R] (l : List R) :
    ∀ k : ℕ, (coeffsPoly l).coeff k = l.getD k 0 := by
  unfold coeffsPoly
  induction l with
  | nil => intro k; simp
  | cons c rest ih =>
    intro k
    cases k with
    | zero =>
      simp [Polynomial.coeff_add, Polynomial.coeff_C, Polynomial.coeff_mul_X_zero]
    | succ k =>
      simp only [List.foldr_cons, Polynomial.coeff_add, Polynomial.coeff_C,
        Polynomial.coeff_mul_X, ih k]
      simp

/-- Degree bound for `coeffsPoly`. -/
theorem coeffsPoly_degree_lt {R : Type} [Semiring R] (l : List R) :
    (coeffsPoly l).degree < (l.length : ℕ) := by
  rw [Polynomial.degree_lt_iff_coeff_zero]
  intro m hm
  rw [coeffsPoly_coeff]
  exact List.getD_eq_default _ _ (by omega)

/-- Evaluation of `evalPoly` in the field is the evaluation of the cast
coefficient polynomial. -/
theorem evalPoly_eval (coeffs : List ℤ) (x : ℤ) :
    ((evalPoly coeffs x P : ℤ) : Fp) =
      (coeffsPoly (coeffs.map (Int.cast : ℤ → Fp))).eval (x : Fp) := by
  rw [coeffsPoly_eval]
  exact @evalPoly_cast coeffs x 4294967291 (by norm_num)

/-! ### Lagrange interpolation identifies the reconstructed value -/

/-- Identification of `lagrangeAtZero` with the evaluation at 0 of any
polynomial of degree below the number of shares passing through all
share points. -/
theorem lagrangeAtZero_eq_eval (shares : List Share) (f : Polynomial Fp)
    (hdeg : f.degree < (shares.length : ℕ))
    (hy : ∀ i, i < shares.length →
      ((shares.getD i (0, 0)).2 : Fp) = f.eval ((shares.getD i (0, 0)).1 : Fp))
    (hinj : ∀ a b : ℕ, a < shares.length → b < shares.length → a ≠ b →
      ((shares.getD a (0, 0)).1 : Fp) ≠ ((shares.getD b (0, 0)).1 : Fp)) :
    lagrangeAtZero shares = f.eval 0 := by
  have hvinj : Set.InjOn (fun i : ℕ => ((shares.getD i (0, 0)).1 : Fp))
      ↑(Finset.range shares.length) := by
    intro a ha b hb hab
    by_contra hne
    exact hinj a b (by simpa using ha) (by simpa using hb) hne hab
  have hfi : f = Lagrange.interpolate (Finset.range shares.length)
      (fun i : ℕ => ((shares.getD i (0, 0)).1 : Fp))
      (fun i : ℕ => ((shares.getD i (0, 0)).2 : Fp)) := by
    refine Lagrange.eq_interpolate_of_eval_eq _ hvinj ?_ ?_
    · rw [Finset.card_range]
      exact hdeg
    · intro i hi
      exact (hy i (Finset.mem_range.mp hi)).symm
  have heval : (Lagrange.interpolate (Finset.range shares.length)
      (fun i : ℕ => ((shares.getD i (0, 0)).1 : Fp))
      (fun i : ℕ => ((shares.getD i (0, 0)).2 : Fp))).eval 0 = lagrangeAtZero shares := by
    rw [Lagrange.interpolate_apply, Polynomial.eval_finset_sum]
    unfold lagrangeAtZero
    refine Finset.sum_congr rfl (fun i _ => ?_)
    rw [Polynomial.eval_mul, Polynomial.eval_C]
    congr 1
    rw [Lagrange.basis, Polynomial.eval_prod]
    have hfactor : ∀ j ∈ (Finset.range shares.length).erase i,
        (Lagrange.basisDivisor ((shares.getD i (0, 0)).1 : Fp) ((shares.getD j (0, 0)).1 : Fp)).eval 0
          = (-((shares.getD j (0, 0)).1 : Fp)) *
            (((shares.getD i (0, 0)).1 : Fp) - ((shares.getD j (0, 0)).1 : Fp))⁻¹ := by
      intro j _
      rw [Lagrange.basisDivisor]
      simp only [Polynomial.eval_mul, Polynomial.eval_C, Polynomial.eval_sub, Polynomial.eval_X,
        Polynomial.eval_C]
      ring
    rw [Finset.prod_congr rfl hfactor, Finset.prod_mul_distrib, Finset.prod_inv_distrib]
  rw [hfi, heval]

/-- Distinct integers in the window [1, P] stay distinct in the residue
field. -/
theorem intCast_injOn_window {x y : ℤ} (hx1 : 1 ≤ x) (hxP : x ≤ P) (hy1 : 1 ≤ y)
    (hyP : y ≤ P) (hne : x ≠ y) : (x : Fp) ≠ (y : Fp) := by
  intro heq
  have hmod : x ≡ y [ZMOD (4294967291 : ℕ)] := (ZMod.intCast_eq_intCast_iff x y 4294967291).mp heq
  have hdvd : ((4294967291 : ℕ) : ℤ) ∣ y - x := Int.ModEq.dvd hmod
  obtain ⟨c, hc⟩ := hdvd
  have hP : (P : ℤ) = 4294967291 := rfl
  push_cast at hc
  rw [hP] at hxP hyP
  omega

/-- Distinct positions of a duplicate-free list hold distinct values. -/
theorem nodup_getD_ne {α : Type} {d : α} {l : List α} (h : l.Nodup) {a b : ℕ}
    (ha : a < l.length) (hb : b < l.length) (hab : a ≠ b) : l.getD a d ≠ l.getD b d := by
  rw [List.getD_eq_getElem _ _ ha, List.getD_eq_getElem _ _ hb]
  intro he
  have hinj := List.nodup_iff_injective_get.mp h
  have hfin : (⟨a, ha⟩ : Fin l.length) = ⟨b, hb⟩ := by
    apply hinj
    simpa [List.get_eq_getElem] using he
  exact hab (congrArg Fin.val hfin)

/-- First components through `getD`. -/
theorem map_fst_getD (l : List Share) (i : ℕ) :
    (l.map Prod.fst).getD i 0 = (l.getD i (0, 0)).1 := by
  by_cases hi : i < l.length
  · rw [List.getD_eq_getElem _ _ (by simpa using hi), List.getD_eq_getElem _ _ hi]
    simp
  · rw [List.getD_eq_default _ _ (by simpa using hi), List.getD_eq_default _ _ (by omega)]

/-- Round trip of the threshold scheme, amended with the windows
`n ≤ P` that keeps the abscissas distinct in the field.  The secret is
in range, the threshold is valid, the share list is the output of
`split`, and `S` is any subsequence of it of size `t`; then
`reconstruct` returns exactly the secret. -/
theorem C1_threshold_roundtrip (k : ℤ) (n t : ℕ) (draws : List ℤ) (shares S : List Share)
    (hk0 : 0 ≤ k) (hkP : k < P) (ht : 2 ≤ t) (htn : t ≤ n) (hnP : (n : ℤ) ≤ P)
    (hsplit : split k n t P draws = some shares)
    (hsub : S.Sublist shares) (hlen : S.length = t) :
    reconstruct S P = some k := by
  simp only [split] at hsplit
  rw [if_neg (not_not_intro ⟨hk0, hkP⟩), if_neg (by omega)] at hsplit
  have hshares : shares = (List.range' 1 n).map
      (fun x : ℕ => ((x : ℤ), evalPoly (mod k P :: draws.take (t - 1)) (x : ℤ) P)) :=
    (Option.some.inj hsplit).symm
  have hmem_struct : ∀ s ∈ S, ∃ x : ℕ, 1 ≤ x ∧ x ≤ n ∧
      s = ((x : ℤ), evalPoly (mod k P :: draws.take (t - 1)) (x : ℤ) P) := by
    intro s hs
    have hs2 : s ∈ shares := List.Sublist.mem hs hsub
    rw [hshares] at hs2
    obtain ⟨x, hx, hxe⟩ := List.mem_map.mp hs2
    have hxr := List.mem_range'_1.mp hx
    exact ⟨x, by omega, by omega, hxe.symm⟩
  have hSnodup : (S.map Prod.fst).Nodup := by
    have hmapped : shares.map Prod.fst = (List.range' 1 n).map (fun x : ℕ => (x : ℤ)) := by
      rw [hshares, List.map_map]
      rfl
    have hnodup : (shares.map Prod.fst).Nodup := by
      rw [hmapped]
      exact (List.nodup_range' 1 n).map (fun a b hab => by exact_mod_cast hab)
    exact (hsub.map Prod.fst).nodup hnodup
  have hgetD_mem : ∀ i, i < S.length → S.getD i (0, 0) ∈ S := by
    intro i hi
    rw [List.getD_eq_getElem _ _ hi]
    exact List.getElem_mem _
  have hwindow : ∀ i, i < S.length →
      1 ≤ (S.getD i (0, 0)).1 ∧ (S.getD i (0, 0)).1 ≤ P := by
    intro i hi
    obtain ⟨x, hx1, hxn, hxe⟩ := hmem_struct _ (hgetD_mem i hi)
    rw [hxe]
    constructor
    · show (1 : ℤ) ≤ ((x : ℕ) : ℤ)
      exact_mod_cast hx1
    · show ((x : ℕ) : ℤ) ≤ P
      calc ((x : ℕ) : ℤ) ≤ (n : ℤ) := by exact_mod_cast hxn
        _ ≤ P := hnP
  have hinj : ∀ a b : ℕ, a < S.length → b < S.length → a ≠ b →
      ((S.getD a (0, 0)).1 : Fp) ≠ ((S.getD b (0, 0)).1 : Fp) := by
    intro a b ha hb hab
    have hne : (S.getD a (0, 0)).1 ≠ (S.getD b (0, 0)).1 := by
      have h1 := @nodup_getD_ne ℤ 0 _ hSnodup a b (by simpa using ha) (by simpa using hb) hab
      rw [map_fst_getD, map_fst_getD] at h1
      exact h1
    exact intCast_injOn_window (hwindow a ha).1 (hwindow a ha).2 (hwindow b hb).1
      (hwindow b hb).2 hne
  have hSlen : ¬ S.length = 0 := by omega
  rw [reconstruct_some S hSlen hSnodup hinj]
  have hdeg : (coeffsPoly ((mod k P :: draws.take (t - 1)).map (Int.cast : ℤ → Fp))).degree
      < (S.length : ℕ) := by
    refine lt_of_lt_of_le (coeffsPoly_degree_lt _) ?_
    have hlenc : ((mod k P :: draws.take (t - 1)).map (Int.cast : ℤ → Fp)).length ≤ S.length := by
      simp only [List.length_map, List.length_cons, List.length_take]
      omega
    exact_mod_cast Nat.cast_le.mpr hlenc
  have hy : ∀ i, i < S.length → ((S.getD i (0, 0)).2 : Fp) =
      (coeffsPoly ((mod k P :: draws.take (t - 1)).map (Int.cast : ℤ → Fp))).eval
        ((S.getD i (0, 0)).1 : Fp) := by
    intro i hi
    obtain ⟨x, _, _, hxe⟩ := hmem_struct _ (hgetD_mem i hi)
    rw [hxe]
    exact evalPoly_eval _ _
  rw [lagrangeAtZero_eq_eval S _ hdeg hy hinj]
  have heval0 : (coeffsPoly ((mod k P :: draws.take (t - 1)).map (Int.cast : ℤ → Fp))).eval 0
      = (k : Fp) := by
    rw [coeffsPoly_eval]
    simp only [List.map_cons, List.foldr_cons, mul_zero, zero_add]
    exact mod_cast_P k
  rw [heval0, ZMod.val_intCast]
  congr 1
  exact Int.emod_eq_of_lt hk0 hkP

/-- C1 (amended): for every secret k with 0 ≤ k < P, every threshold
pair 2 ≤ t ≤ n with n ≤ P, every stream of random coefficient draws,
and every size-t subsequence S of the shares returned by split,
reconstruct(S) returns exactly k.  (The amendment is the added bound
n ≤ P: beyond it split places two abscissas in the same residue class
and reconstruct throws a NoInverse error, see the counterexample.) -/
theorem C1_threshold_roundtrip_amended (k : ℤ) (n t : ℕ) (draws : List ℤ)
    (shares S : List Share)
    (hk0 : 0 ≤ k) (hkP : k < P) (ht : 2 ≤ t) (htn : t ≤ n) (hnP : (n : ℤ) ≤ P)
    (hsplit : split k n t P draws = some shares)
    (hsub : S.Sublist shares) (hlen : S.length = t) :
    reconstruct S P = some k :=
  C1_threshold_roundtrip k n t draws shares S hk0 hkP ht htn hnP hsplit hsub hlen

/-- Witness for C1: splitting the secret 5 into n = 2 shares with
threshold t = 2 and random draw 7 gives shares (1, 12), (2, 19), and
reconstructing from both returns 5. -/
theorem C1_witness :
    reconstruct [((1 : ℤ), (12 : ℤ)), ((2 : ℤ), (19 : ℤ))] P = some 5 :=
  C1_threshold_roundtrip_amended 5 2 2 [7]
    [((1 : ℤ), (12 : ℤ)), ((2 : ℤ), (19 : ℤ))]
    [((1 : ℤ), (12 : ℤ)), ((2 : ℤ), (19 : ℤ))]
    (by norm_num) (by norm_num [P]) (by norm_num) (by norm_num) (by norm_num [P])
    (by decide) (List.Sublist.refl _) (by decide)

/-- The all-zero coefficient pair evaluates to zero everywhere. -/
theorem evalPoly_zero_zero (x : ℤ) : evalPoly [0, 0] x P = 0 := by
  simp [evalPoly, addm, mulm, mod, Int.zero_tmod]

/-- C1 (counterexample to the claim as stated): with n = P + 1 (which
the claim allows, requiring only 2 ≤ t ≤ n), the shares at x = 1 and
x = P + 1 are a size-2 subset of split(0, P+1, 2), but reconstruct
fails with a NoInverse error instead of returning the secret, because
the two abscissas coincide modulo P. -/
theorem C1_counterexample :
    split 0 4294967292 2 P [0]
      = some ((List.range' 1 4294967292).map
          (fun x : ℕ => ((x : ℤ), evalPoly [0, 0] (x : ℤ) P)))
    ∧ [((1 : ℤ), (0 : ℤ)), ((4294967292 : ℤ), (0 : ℤ))].Sublist
        ((List.range' 1 4294967292).map
          (fun x : ℕ => ((x : ℤ), evalPoly [0, 0] (x : ℤ) P)))
    ∧ reconstruct [((1 : ℤ), (0 : ℤ)), ((4294967292 : ℤ), (0 : ℤ))] P = none := by
  refine ⟨?_, ?_, ?_⟩
  · simp only [split]
    rw [if_neg (not_not_intro ⟨le_refl 0, by norm_num [P]⟩), if_neg (by norm_num)]
    have hc : mod 0 P = 0 := by decide
    simp [hc]
  · have hmap : [((1 : ℤ), (0 : ℤ)), ((4294967292 : ℤ), (0 : ℤ))]
        = [1, 4294967292].map (fun x : ℕ => ((x : ℤ), evalPoly [0, 0] (x : ℤ) P)) := by
      simp [evalPoly_zero_zero]
    rw [hmap]
    refine List.Sublist.map _ ?_
    have hsplit2 : List.range' 1 4294967292 = List.range' 1 4294967291 ++ [4294967292] := by
      have h := @List.range'_concat 1 1 4294967291
      norm_num at h
      exact h
    rw [hsplit2]
    have h1 : [1].Sublist (List.range' 1 4294967291) := by
      rw [List.range'_succ]
      exact List.Sublist.cons₂ 1 (List.nil_sublist _)
    exact List.Sublist.append h1 (List.Sublist.refl _)
  · rw [reconstruct_eq_foldlM _ (by decide) (by decide)]
    have hden : denom [((1 : ℤ), (0 : ℤ)), ((4294967292 : ℤ), (0 : ℤ))] 0 = 0 := by decide
    have hrange2 : List.range ([((1 : ℤ), (0 : ℤ)), ((4294967292 : ℤ), (0 : ℤ))] : List Share).length
        = [0, 1] := rfl
    rw [hrange2, List.foldlM_cons, hden, invm_none (by norm_num)]
    rfl

/-- C3: reconstruct fails on zero shares, fails when two shares have an
equal x value, and returns a value without error whenever the shares
have pairwise-distinct x values that are positive integers at most the
field size P. -/
theorem C3_reconstruct_errors (shares : List Share) :
    (shares = [] → reconstruct shares P = none) ∧
    (¬ (shares.map Prod.fst).Nodup → reconstruct shares P = none) ∧
    (shares ≠ [] → (shares.map Prod.fst).Nodup →
      (∀ s ∈ shares, 1 ≤ s.1 ∧ s.1 ≤ P) → ∃ v, reconstruct shares P = some v) := by
  refine ⟨?_, ?_, ?_⟩
  · intro h
    subst h
    rfl
  · intro h
    by_cases hl : shares.length = 0
    · simp [reconstruct, hl]
    · simp [reconstruct, hl, h]
  · intro hne hnd hwin
    have hlen : ¬ shares.length = 0 := by
      intro h
      exact hne (List.length_eq_zero.mp h)
    have hgetD_mem : ∀ i, i < shares.length → shares.getD i (0, 0) ∈ shares := by
      intro i hi
      rw [List.getD_eq_getElem _ _ hi]
      exact List.getElem_mem _
    have hinj : ∀ a b : ℕ, a < shares.length → b < shares.length → a ≠ b →
        ((shares.getD a (0, 0)).1 : Fp) ≠ ((shares.getD b (0, 0)).1 : Fp) := by
      intro a b ha hb hab
      have hne2 : (shares.getD a (0, 0)).1 ≠ (shares.getD b (0, 0)).1 := by
        have h1 := @nodup_getD_ne ℤ 0 _ hnd a b (by simpa using ha) (by simpa using hb) hab
        rw [map_fst_getD, map_fst_getD] at h1
        exact h1
      have hwa := hwin _ (hgetD_mem a ha)
      have hwb := hwin _ (hgetD_mem b hb)
      exact intCast_injOn_window hwa.1 hwa.2 hwb.1 hwb.2 hne2
    exact ⟨_, reconstruct_some shares hlen hnd hinj⟩

/-- Witness for C3: the empty list fails, a duplicated abscissa fails,
and a well-formed two-share list succeeds. -/
theorem C3_witness :
    reconstruct [] P = none
    ∧ reconstruct [((1 : ℤ), (5 : ℤ)), ((1 : ℤ), (7 : ℤ))] P = none
    ∧ (reconstruct [((1 : ℤ), (5 : ℤ)), ((2 : ℤ), (7 : ℤ))] P).isSome = true := by
  refine ⟨(C3_reconstruct_errors []).1 rfl,
    (C3_reconstruct_errors [((1 : ℤ), (5 : ℤ)), ((1 : ℤ), (7 : ℤ))]).2.1 (by decide), ?_⟩
  obtain ⟨v, hv⟩ := (C3_reconstruct_errors [((1 : ℤ), (5 : ℤ)), ((2 : ℤ), (7 : ℤ))]).2.2
    (by decide) (by decide) (by decide)
  rw [hv]
  rfl

/-- A monadic fold whose every successful step ends in an `addm`
reduction stays inside the window [0, P). -/
theorem foldlM_addm_window {α : Type} (F : ℤ → α → Option ℤ)
    (hF : ∀ acc : ℤ, ∀ i : α, ∀ v' : ℤ, F acc i = some v' → ∃ b : ℤ, v' = addm acc b P) :
    ∀ (l : List α) (init v : ℤ), 0 ≤ init → init < P →
      l.foldlM F init = some v → 0 ≤ v ∧ v < P := by
  intro l
  induction l with
  | nil =>
    intro init v h0 h1 hv
    have : init = v := by simpa using hv
    omega
  | cons a rest ih =>
    intro init v h0 h1 hv
    rw [List.foldlM_cons] at hv
    cases hFa : F init a with
    | none => rw [hFa] at hv; simp at hv
    | some acc' =>
      rw [hFa] at hv
      simp only [Option.bind_eq_bind, Option.some_bind] at hv
      obtain ⟨b, hb⟩ := hF init a acc' hFa
      have hr := mod_range (init + b) (show (0:ℤ) < P from by norm_num [P])
      exact ih acc' v (hb ▸ hr.1) (hb ▸ hr.2) hv

/-- C10 (amended): whenever reconstruct returns a value at all, that
value lies in the window [0, P) — every intermediate and final result
is normalised by the mod helper.  (The claim as stated also asserts
that a value is always returned for non-empty pairwise-distinct share
lists; the counterexample shows a NoInverse failure for abscissas that
are distinct as integers but congruent modulo P.) -/
theorem C10_reconstruct_range (shares : List Share) (v : ℤ)
    (h : reconstruct shares P = some v) : 0 ≤ v ∧ v < P := by
  unfold reconstruct at h
  by_cases hl : shares.length = 0
  · rw [if_pos hl] at h
    cases h
  rw [if_neg hl] at h
  by_cases hnd : ¬ (shares.map Prod.fst).Nodup
  · rw [if_pos hnd] at h
    cases h
  rw [if_neg hnd] at h
  refine foldlM_addm_window _ ?_ (List.range shares.length) 0 v le_rfl (by norm_num [P]) h
  intro acc i v' hv'
  obtain ⟨dinv, _, hdv⟩ := Option.map_eq_some'.mp hv'
  exact ⟨_, hdv.symm⟩

/-- C10 (counterexample to the claim as stated): a non-empty share list
with pairwise-distinct integer x values on which reconstruct returns an
error rather than a value, because 0 and P coincide modulo P. -/
theorem C10_counterexample :
    reconstruct [((0 : ℤ), (0 : ℤ)), ((4294967291 : ℤ), (0 : ℤ))] P = none
    ∧ ([((0 : ℤ), (0 : ℤ)), ((4294967291 : ℤ), (0 : ℤ))].map Prod.fst).Nodup := by
  constructor
  · rw [reconstruct_eq_foldlM _ (by decide) (by decide)]
    have hden : denom [((0 : ℤ), (0 : ℤ)), ((4294967291 : ℤ), (0 : ℤ))] 0 = 0 := by decide
    have hrange2 : List.range ([((0 : ℤ), (0 : ℤ)), ((4294967291 : ℤ), (0 : ℤ))] : List Share).length
        = [0, 1] := rfl
    rw [hrange2, List.foldlM_cons, hden, invm_none (by norm_num)]
    rfl
  · decide

/-- Concrete evaluation of the modular inverse of 1. -/
theorem invm_one_eval : invm 1 P = some 1 := by
  have hm : (mod 1 P).toNat = 1 := by decide
  have hP : P.toNat = 4294967291 := rfl
  simp only [invm, hm, hP]
  rw [egcdLoop_eq]
  norm_num
  rw [egcdLoop_eq]
  norm_num

/-- Witness for C10: the one-share list (1, 5) reconstructs to the
value 5, which the theorem places inside [0, P). -/
theorem C10_witness : 0 ≤ (5 : ℤ) ∧ (5 : ℤ) < P :=
  C10_reconstruct_range [((1 : ℤ), (5 : ℤ))] 5 (by
    rw [reconstruct_eq_foldlM _ (by decide) (by decide)]
    have hden : denom [((1 : ℤ), (5 : ℤ))] 0 = 1 := by decide
    have hnum : numer [((1 : ℤ), (5 : ℤ))] 0 = 1 := by decide
    have hr1 : List.range ([((1 : ℤ), (5 : ℤ))] : List Share).length = [0] := rfl
    rw [hr1, List.foldlM_cons, hden, hnum, invm_one_eval]
    have hval : addm 0 (mulm 5 (mulm 1 1 P) P) P = 5 := by decide
    simp [hval])


/-! ### Direct and Horner evaluation agree (rational scheme) -/

/-- The Horner fold of a dense list is the power-weighted sum. -/
theorem horner_foldr_eq_sum (l : List ℚ) (x : ℚ) :
    l.foldr (fun c acc => acc * x + c) 0 = ∑ j ∈ Finset.range l.length, l.getD j 0 * x ^ j := by
  induction l with
  | nil => simp
  | cons c t ih =>
    simp only [List.foldr_cons, ih, List.length_cons]
    rw [Finset.sum_range_succ']
    simp only [List.getD_cons_succ, List.getD_cons_zero, pow_zero, mul_one, Finset.sum_mul]
    congr 1
    refine Finset.sum_congr rfl (fun j _ => ?_)
    rw [pow_succ]
    ring

/-- Every stored position is bounded by the degree. -/
theorem position_le_degree (p : List (ℚ × ℕ)) : ∀ cp ∈ p, cp.2 ≤ PolySparse.degree p := by
  induction p with
  | nil => intro cp h; cases h
  | cons d rest ih =>
    intro cp h
    rcases List.mem_cons.mp h with h | h
    · subst h
      simp [PolySparse.degree]
    · have := ih cp h
      simp only [PolySparse.degree, List.foldr_cons]
      have hrest : PolySparse.degree rest = rest.foldr (fun cp m => max cp.2 m) 0 := rfl
      omega

/-- A position that is not stored reads back as zero. -/
theorem coefficientAt_of_not_mem (p : List (ℚ × ℕ)) (j : ℕ) (h : j ∉ p.map Prod.snd) :
    PolySparse.coefficientAt p j = 0 := by
  unfold PolySparse.coefficientAt
  cases hfind : p.find? (fun cp => cp.2 == j) with
  | none => rfl
  | some cp =>
    exfalso
    have hmem := List.mem_of_find?_eq_some hfind
    have htest := List.find?_some hfind
    have : cp.2 = j := by simpa using htest
    exact h (List.mem_map.mpr ⟨cp, hmem, this⟩)

/-- With duplicate-free positions, a stored pair reads back its own
coefficient. -/
theorem coefficientAt_of_mem (p : List (ℚ × ℕ)) (hnd : (p.map Prod.snd).Nodup)
    (cp : ℚ × ℕ) (hm : cp ∈ p) : PolySparse.coefficientAt p cp.2 = cp.1 := by
  induction p with
  | nil => cases hm
  | cons d rest ih =>
    simp only [List.map_cons, List.nodup_cons] at hnd
    rcases List.mem_cons.mp hm with h | h
    · subst h
      unfold PolySparse.coefficientAt
      rw [List.find?_cons_of_pos _ (by simp)]
    · have hne : (d.2 == cp.2) = false := by
        simp only [beq_eq_false_iff_ne, ne_eq]
        intro he
        exact hnd.1 (he ▸ List.mem_map.mpr ⟨cp, h, rfl⟩)
      have hstep : PolySparse.coefficientAt (d :: rest) cp.2 = PolySparse.coefficientAt rest cp.2 := by
        unfold PolySparse.coefficientAt
        rw [List.find?_cons, hne]
      rw [hstep]
      exact ih hnd.2 h

/-- C5: for every polynomial (a pair list with duplicate-free stored
degrees, the data-model invariant of the sparse representation) and
every rational x, the direct evaluation (sum of coefficient times
x^degree over stored terms) equals the Horner evaluation (fold over the
dense highest-to-lowest coefficient list). -/
theorem C5_evaluate_eq_evaluateHorner (polynomial : List (ℚ × ℕ)) (x : ℚ)
    (hnd : (polynomial.map Prod.snd).Nodup) :
    PolySparse.evaluate polynomial x = PolySparse.evaluateHorner polynomial x := by
  unfold PolySparse.evaluateHorner
  rw [horner_foldr_eq_sum]
  simp only [List.length_map, List.length_range]
  have hgetD : ∀ j ∈ Finset.range (PolySparse.degree polynomial + 1),
      ((List.range (PolySparse.degree polynomial + 1)).map
        (PolySparse.coefficientAt polynomial)).getD j 0 * x ^ j
        = PolySparse.coefficientAt polynomial j * x ^ j := by
    intro j hj
    have hj' := Finset.mem_range.mp hj
    rw [List.getD_eq_getElem _ _ (by simpa using hj')]
    simp
  rw [Finset.sum_congr rfl hgetD]
  have hsubset : (polynomial.map Prod.snd).toFinset ⊆ Finset.range (PolySparse.degree polynomial + 1) := by
    intro j hj
    obtain ⟨cp, hcp, hcpj⟩ := List.mem_map.mp (List.mem_toFinset.mp hj)
    have := position_le_degree polynomial cp hcp
    exact Finset.mem_range.mpr (by omega)
  have hzero : ∀ j ∈ Finset.range (PolySparse.degree polynomial + 1),
      j ∉ (polynomial.map Prod.snd).toFinset →
        PolySparse.coefficientAt polynomial j * x ^ j = 0 := by
    intro j _ hj
    rw [coefficientAt_of_not_mem polynomial j (fun hc => hj (List.mem_toFinset.mpr hc))]
    ring
  rw [← Finset.sum_subset hsubset hzero]
  rw [List.sum_toFinset _ hnd]
  rw [List.map_map]
  unfold PolySparse.evaluate
  refine congrArg List.sum (List.map_congr_left (fun cp hm => ?_))
  show cp.1 * x ^ cp.2 = PolySparse.coefficientAt polynomial cp.2 * x ^ cp.2
  rw [coefficientAt_of_mem polynomial hnd cp hm]

/-- Witness for C5: the test polynomial 4x^5 + 3x^2 + 2x + 1 at x = 2,
where both methods give 145. -/
theorem C5_witness :
    (([((1:ℚ), 0), ((2:ℚ), 1), ((3:ℚ), 2), ((4:ℚ), 5)] : List (ℚ × ℕ)).map Prod.snd).Nodup
    ∧ PolySparse.evaluate [((1:ℚ), 0), ((2:ℚ), 1), ((3:ℚ), 2), ((4:ℚ), 5)] 2
      = PolySparse.evaluateHorner [((1:ℚ), 0), ((2:ℚ), 1), ((3:ℚ), 2), ((4:ℚ), 5)] 2 :=
  ⟨by decide, C5_evaluate_eq_evaluateHorner _ 2 (by decide)⟩

/-! ### Interpolation and rendering examples -/

/-- C6: interpolating {(1,3),(4,9)} renders as "2x + 1" and
interpolating {(2,3),(7,4)} renders as "1/5x + 13/5". -/
theorem C6_interpolate_examples :
    (interpolate [((1 : ℚ), (3 : ℚ)), ((4 : ℚ), (9 : ℚ))]).map PolyDense.print = some "2x + 1"
    ∧ (interpolate [((2 : ℚ), (3 : ℚ)), ((7 : ℚ), (4 : ℚ))]).map PolyDense.print
        = some "1/5x + 13/5" := by
  have h1 : interpolate [((1 : ℚ), (3 : ℚ)), ((4 : ℚ), (9 : ℚ))] = some [1, 2] := by
    simp only [interpolate, optionList]
    norm_num [PolyDense.multiply, PolyDense.add, PolyDense.multiplyWithRealNumber, reduce1,
      List.range_succ, List.filter]
  have hq13 : (13 : ℚ)/5 = Rat.mk' 13 5 (by norm_num) (by norm_num) := by
    rw [Rat.mk'_eq_divInt, Rat.divInt_eq_div]
    norm_num
  have hq15 : (1 : ℚ)/5 = Rat.mk' 1 5 (by norm_num) (by norm_num) := by
    rw [Rat.mk'_eq_divInt, Rat.divInt_eq_div]
    norm_num
  have h2 : interpolate [((2 : ℚ), (3 : ℚ)), ((7 : ℚ), (4 : ℚ))]
      = some [Rat.mk' 13 5 (by norm_num) (by norm_num), Rat.mk' 1 5 (by norm_num) (by norm_num)] := by
    rw [← hq13, ← hq15]
    simp only [interpolate, optionList]
    norm_num [PolyDense.multiply, PolyDense.add, PolyDense.multiplyWithRealNumber, reduce1,
      List.range_succ, List.filter]
  rw [h1, h2]
  constructor
  · show some (PolyDense.print [1, 2]) = some "2x + 1"
    have hp : PolyDense.print [(1 : ℚ), 2] = "2x + 1" := by decide
    rw [hp]
  · show some (PolyDense.print _) = some "1/5x + 13/5"
    have hp : PolyDense.print [Rat.mk' 13 5 (by norm_num) (by norm_num),
        Rat.mk' 1 5 (by norm_num) (by norm_num)] = "1/5x + 13/5" := by decide
    rw [hp]

/-- C7 (counterexample to the claim as stated): the dense all-zero list
of length two — one of the representations the claim covers — renders
as the empty string, not "0": joining two empty term strings gives
" + ", the trailing-plus tweak strips " + " completely, and trim leaves
nothing. -/
theorem C7_counterexample : PolyDense.print [(0 : ℚ), (0 : ℚ)] ≠ "0" := by decide

/-- C7 (amended): a zero polynomial stored as a single zero coefficient
at degree 0 renders as "0" in both drafts, while the empty mapping and
the dense all-zero list of length two render as the empty string. -/
theorem C7_zero_renderings :
    PolyDense.print [(0 : ℚ)] = "0"
    ∧ PolySparse.print [((0 : ℚ), 0)] = "0"
    ∧ PolyDense.print [(0 : ℚ), (0 : ℚ)] = ""
    ∧ PolySparse.print ([] : List (ℚ × ℕ)) = "" := by
  refine ⟨by decide, by decide, by decide, by decide⟩

/-- C8: the dense `print` mutates its operand — JavaScript
`Array.prototype.reverse` reverses in place, so after rendering the
polynomial 1 + 2x + 3x^2 the stored coefficient array is [3, 2, 1],
not the original [1, 2, 3] the immutability contract requires. -/
theorem C8_print_mutates_operand :
    printResidue [(1 : ℚ), 2, 3] = [3, 2, 1]
    ∧ printResidue [(1 : ℚ), 2, 3] ≠ [1, 2, 3] := by
  refine ⟨by decide, by decide⟩

/-- C9 (counterexample to the claim as stated): with the two random
draws equal (which `Math.floor(Math.random() * 100)` can produce), the
two points returned by encode share the abscissa 5. -/
theorem C9_counterexample :
    encode [97, 98] [5, 5] = some [((5 : ℚ), (587 : ℚ)), ((5 : ℚ), (587 : ℚ))]
    ∧ ¬ (([((5 : ℚ), (587 : ℚ)), ((5 : ℚ), (587 : ℚ))].map Prod.fst).Nodup) := by
  constructor
  · simp only [encode]
    norm_num [PolySparse.newPolynomialFromPairs, PolySparse.evaluate, toRational,
      List.mapIdx_cons]
  · decide

/-- C9 (amended): when the random draws consumed by encode are pairwise
distinct, the returned point list has pairwise-distinct x-coordinates
(the x of each point is exactly the corresponding draw). -/
theorem C9_encode_distinct_abscissas (secret : List ℕ) (draws : List ℚ) (pts : List Point)
    (henc : encode secret draws = some pts)
    (hnd : (draws.take secret.length).Nodup) :
    (pts.map Prod.fst).Nodup := by
  simp only [encode] at henc
  by_cases hlen : 6 < secret.length
  · rw [if_pos hlen] at henc
    cases henc
  rw [if_neg hlen] at henc
  have hpts := (Option.some.inj henc).symm
  have hcount : (((secret.map (fun c : ℕ => ((c : ℤ) : ℚ))).length : ℤ) - 1 + 1).toNat
      = secret.length := by
    simp only [List.length_map]
    omega
  rw [hpts, List.map_map, hcount]
  have hfst : (Prod.fst ∘ fun r : ℚ => (r, PolySparse.evaluate (PolySparse.newPolynomialFromPairs
      ((secret.map (fun c : ℕ => ((c : ℤ) : ℚ))).mapIdx (fun index rational => (rational, index)))) r))
      = id := rfl
  rw [hfst, List.map_id]
  exact hnd

/-- Witness for C9: encoding the two-character secret [97, 98] with the
distinct draws 3 and 5 yields points with distinct abscissas. -/
theorem C9_witness :
    (([((3 : ℚ), (391 : ℚ)), ((5 : ℚ), (587 : ℚ))].map Prod.fst).Nodup) :=
  C9_encode_distinct_abscissas [97, 98] [3, 5] [((3 : ℚ), (391 : ℚ)), ((5 : ℚ), (587 : ℚ))]
    (by
      simp only [encode]
      norm_num [PolySparse.newPolynomialFromPairs, PolySparse.evaluate, toRational,
        List.mapIdx_cons])
    (by decide)

/-! ### Decode behaviour on coefficients -/

/-- C4 (counterexample to the claim as stated): the points
{(2,3),(7,4)} interpolate to 1/5·x + 13/5, whose coefficients are not
character codes, yet decode returns a string rather than failing: each
coefficient is reduced via parseInt (the numerator) and fromCharCode
(mod 2^16), yielding the code units 13 and 1. -/
theorem C4_counterexample :
    decode [((2 : ℚ), (3 : ℚ)), ((7 : ℚ), (4 : ℚ))] = some [13, 1] := by
  have hq13 : (13 : ℚ)/5 = Rat.mk' 13 5 (by norm_num) (by norm_num) := by
    rw [Rat.mk'_eq_divInt, Rat.divInt_eq_div]
    norm_num
  have hq15 : (1 : ℚ)/5 = Rat.mk' 1 5 (by norm_num) (by norm_num) := by
    rw [Rat.mk'_eq_divInt, Rat.divInt_eq_div]
    norm_num
  have h2 : interpolate [((2 : ℚ), (3 : ℚ)), ((7 : ℚ), (4 : ℚ))]
      = some [Rat.mk' 13 5 (by norm_num) (by norm_num), Rat.mk' 1 5 (by norm_num) (by norm_num)] := by
    rw [← hq13, ← hq15]
    simp only [interpolate, optionList]
    norm_num [PolyDense.multiply, PolyDense.add, PolyDense.multiplyWithRealNumber, reduce1,
      List.range_succ, List.filter]
  rw [decode, h2]
  have hc1 : charOfCoefficient (Rat.mk' 13 5 (by norm_num) (by norm_num)) = 13 := by decide
  have hc2 : charOfCoefficient (Rat.mk' 1 5 (by norm_num) (by norm_num)) = 1 := by decide
  simp [hc1, hc2]

/-- C4 (amended): decode never fails on coefficient values; whenever
the interpolated coefficient list consists of natural numbers below
2^16 (valid character codes), decode returns exactly those codes, in
ascending degree order. -/
theorem C4_decode_valid_codes (points : List Point) (L : List ℚ) (codes : List ℕ)
    (hI : interpolate points = some L)
    (hL : L = codes.map (fun c : ℕ => ((c : ℤ) : ℚ)))
    (hcodes : ∀ c ∈ codes, c < 65536) :
    decode points = some codes := by
  rw [decode, hI]
  show some _ = some _
  congr 1
  show List.map charOfCoefficient L = codes
  rw [hL, List.map_map]
  have hid : ∀ c ∈ codes, (charOfCoefficient ∘ fun c : ℕ => ((c : ℤ) : ℚ)) c = c := by
    intro c hc
    show charOfCoefficient ((c : ℤ) : ℚ) = c
    unfold charOfCoefficient
    rw [Rat.num_intCast]
    rw [Int.emod_eq_of_lt (by exact_mod_cast Nat.zero_le c) (by exact_mod_cast hcodes c hc)]
    exact Int.toNat_natCast c
  rw [List.map_congr_left hid]
  exact List.map_id codes

/-- Witness for C4: the points (1,170), (2,243) interpolate to
97 + 73x, whose coefficients are the valid codes 97 and 73, and decode
returns them in ascending degree order. -/
theorem C4_witness : decode [((1 : ℚ), (170 : ℚ)), ((2 : ℚ), (243 : ℚ))] = some [97, 73] :=
  C4_decode_valid_codes _ [97, 73] [97, 73]
    (by
      simp only [interpolate, optionList]
      norm_num [PolyDense.multiply, PolyDense.add, PolyDense.multiplyWithRealNumber, reduce1,
        List.range_succ, List.filter])
    (by norm_num)
    (by decide)

/-! ### Dense operations denote polynomial operations -/

/-- Reading a mapped list at an in-range position. -/
theorem getD_map {α β : Type} (f : α → β) (l : List α) (i : ℕ) (hi : i < l.length)
    (d : α) (e : β) : (l.map f).getD i e = f (l.getD i d) := by
  rw [List.getD_eq_getElem _ _ (by simpa using hi), List.getD_eq_getElem _ _ hi]
  simp

/-- Entry k of the dense product is the convolution sum. -/
theorem multiply_getD (a b : List ℚ) (k : ℕ) :
    (PolyDense.multiply a b).getD k 0
      = ∑ i ∈ Finset.range (k + 1), a.getD i 0 * b.getD (k - i) 0 := by
  by_cases hk : k < a.length + b.length - 1
  · unfold PolyDense.multiply
    rw [getD_map _ _ _ (by simpa using hk) 0]
    rw [List.getD_eq_getElem _ _ (by simpa using hk)]
    simp only [List.getElem_range]
    exact range_map_sum (fun i => a.getD i 0 * b.getD (k - i) 0) (k + 1)
  · have hlen : (PolyDense.multiply a b).length = a.length + b.length - 1 := by
      simp [PolyDense.multiply]
    rw [List.getD_eq_default _ _ (by omega)]
    symm
    refine Finset.sum_eq_zero (fun i hi => ?_)
    by_cases hia : i < a.length
    · rw [List.getD_eq_default b _ (by omega)]
      ring
    · rw [List.getD_eq_default a _ (by omega)]
      ring

/-- The dense product denotes the polynomial product. -/
theorem coeffsPoly_multiply (a b : List ℚ) :
    coeffsPoly (PolyDense.multiply a b) = coeffsPoly a * coeffsPoly b := by
  apply Polynomial.ext
  intro k
  rw [coeffsPoly_coeff, multiply_getD, Polynomial.coeff_mul,
    Finset.Nat.sum_antidiagonal_eq_sum_range_succ_mk]
  exact Finset.sum_congr rfl (fun i _ => by rw [coeffsPoly_coeff, coeffsPoly_coeff])

/-- The dense sum denotes the polynomial sum. -/
theorem coeffsPoly_add (a b : List ℚ) :
    coeffsPoly (PolyDense.add a b) = coeffsPoly a + coeffsPoly b := by
  apply Polynomial.ext
  intro k
  rw [coeffsPoly_coeff, Polynomial.coeff_add, coeffsPoly_coeff, coeffsPoly_coeff]
  by_cases hk : k < max a.length b.length
  · unfold PolyDense.add
    rw [getD_map _ _ _ (by simpa using hk) 0]
    have hidx : (List.range (max a.length b.length)).getD k 0 = k := by
      rw [List.getD_eq_getElem _ _ (by simpa using hk)]
      simp
    rw [hidx]
  · have hlen : (PolyDense.add a b).length = max a.length b.length := by
      simp [PolyDense.add]
    rw [List.getD_eq_default _ _ (by omega), List.getD_eq_default a _ (by omega),
      List.getD_eq_default b _ (by omega)]
    ring

/-- The dense scalar multiplication denotes multiplication by a
constant. -/
theorem coeffsPoly_mulReal (a : List ℚ) (c : ℚ) :
    coeffsPoly (PolyDense.multiplyWithRealNumber a c)
      = coeffsPoly a * Polynomial.C c := by
  apply Polynomial.ext
  intro k
  rw [coeffsPoly_coeff, Polynomial.coeff_mul_C, coeffsPoly_coeff]
  by_cases hk : k < a.length
  · unfold PolyDense.multiplyWithRealNumber
    rw [getD_map _ _ _ hk 0]
  · unfold PolyDense.multiplyWithRealNumber
    rw [List.getD_eq_default _ _ (by simpa using (by omega : ¬ k < a.length)),
      List.getD_eq_default a _ (by omega)]
    ring

/-- A two-entry dense list denotes a linear polynomial. -/
theorem coeffsPoly_pair (a b : ℚ) :
    coeffsPoly [a, b] = Polynomial.C a + Polynomial.C b * Polynomial.X := by
  unfold coeffsPoly
  simp only [List.foldr_cons, List.foldr_nil]
  ring

/-- Length of the dense product. -/
theorem multiply_length (a b : List ℚ) :
    (PolyDense.multiply a b).length = a.length + b.length - 1 := by
  simp [PolyDense.multiply]

/-- Length of the dense sum. -/
theorem add_length (a b : List ℚ) :
    (PolyDense.add a b).length = max a.length b.length := by
  simp [PolyDense.add]

/-- Folding the dense product over a list of factors denotes the
product of the denoted polynomials. -/
theorem foldl_multiply_coeffsPoly (ms : List (List ℚ)) :
    ∀ m0 : List ℚ, coeffsPoly (ms.foldl PolyDense.multiply m0)
      = coeffsPoly m0 * (ms.map coeffsPoly).prod := by
  induction ms with
  | nil => intro m0; simp
  | cons m rest ih =>
    intro m0
    simp only [List.foldl_cons, List.map_cons, List.prod_cons]
    rw [ih, coeffsPoly_multiply]
    ring

/-- Folding the dense product over two-entry factors adds one to the
length per factor. -/
theorem foldl_multiply_length (ms : List (List ℚ)) :
    ∀ m0 : List ℚ, (∀ m ∈ ms, m.length = 2) →
      (ms.foldl PolyDense.multiply m0).length = m0.length + ms.length := by
  induction ms with
  | nil => intro m0 _; simp
  | cons m rest ih =>
    intro m0 hm
    simp only [List.foldl_cons, List.length_cons]
    rw [ih _ (fun x hx => hm x (List.mem_cons_of_mem m hx)), multiply_length,
      hm m (List.mem_cons_self m rest)]
    omega

/-- Folding the dense sum denotes the sum of the denoted polynomials. -/
theorem foldl_add_coeffsPoly (ls : List (List ℚ)) :
    ∀ a0 : List ℚ, coeffsPoly (ls.foldl PolyDense.add a0)
      = coeffsPoly a0 + (ls.map coeffsPoly).sum := by
  induction ls with
  | nil => intro a0; simp
  | cons l rest ih =>
    intro a0
    simp only [List.foldl_cons, List.map_cons, List.sum_cons]
    rw [ih, coeffsPoly_add]
    ring

/-- Folding the dense sum over equal-length summands keeps the
length. -/
theorem foldl_add_length (ls : List (List ℚ)) :
    ∀ a0 : List ℚ, (∀ l ∈ ls, l.length = a0.length) →
      (ls.foldl PolyDense.add a0).length = a0.length := by
  induction ls with
  | nil => intro a0 _; rfl
  | cons l rest ih =>
    intro a0 hl
    simp only [List.foldl_cons]
    have hone : (PolyDense.add a0 l).length = a0.length := by
      rw [add_length, hl l (List.mem_cons_self l rest)]
      omega
    rw [ih _ (fun x hx => by rw [hone]; exact hl x (List.mem_cons_of_mem l hx)), hone]

/-- Collecting mapped successes. -/
theorem optionList_map_some {α : Type} (l : List ℕ) (f : ℕ → Option α) (g : ℕ → α)
    (h : ∀ i ∈ l, f i = some (g i)) : optionList (l.map f) = some (l.map g) := by
  induction l with
  | nil => rfl
  | cons i rest ih =>
    simp only [List.map_cons, optionList, h i (List.mem_cons_self i rest),
      ih (fun j hj => h j (List.mem_cons_of_mem i hj))]
    rfl

/-! ### Structure of `interpolate` -/

/-- Length of the range list with one index filtered away. -/
theorem filter_ne_range_length (i : ℕ) (n : ℕ) :
    ((List.range n).filter (fun j => j ≠ i)).length = if i < n then n - 1 else n := by
  induction n with
  | zero => simp
  | succ n ih =>
    rw [List.range_succ, List.filter_append, List.length_append, ih]
    by_cases h : n = i
    · have hfi : List.filter (fun j => j ≠ i) [n] = [] := by simp [h]
      rw [hfi]
      simp only [List.length_nil]
      split_ifs <;> omega
    · have hfn : List.filter (fun j => j ≠ i) [n] = [n] := by simp [h]
      rw [hfn]
      simp only [List.length_cons, List.length_nil]
      split_ifs <;> omega

/-- Number of factors for index `i`. -/
theorem lagMultipliers_length (points : List Point) (i : ℕ) (hi : i < points.length) :
    (lagMultipliers points i).length = points.length - 1 := by
  unfold lagMultipliers
  rw [List.length_map]
  rw [filter_ne_range_length i points.length, if_pos hi]

/-- Every factor is a two-entry list. -/
theorem lagMultipliers_mem_length (points : List Point) (i : ℕ) :
    ∀ m ∈ lagMultipliers points i, m.length = 2 := by
  intro m hm
  obtain ⟨j, _, hj⟩ := List.mem_map.mp hm
  rw [← hj]
  rfl

/-- With the two guards worth of points, `interpolate` is the fold of
the summands. -/
theorem interpolate_eq_adders (points : List Point)
    (hne : ∀ i ∈ List.range points.length, lagMultipliers points i ≠ []) :
    interpolate points
      = reduce1 PolyDense.add ((List.range points.length).map (lagAdder points)) := by
  simp only [interpolate]
  rw [optionList_map_some _ _ (lagAdder points) ?_]
  · rfl
  · intro i hi
    show (reduce1 PolyDense.multiply (lagMultipliers points i)).map
      (fun polynomial => PolyDense.multiplyWithRealNumber polynomial (points.getD i (0, 0)).2)
      = some (lagAdder points i)
    cases hm : lagMultipliers points i with
    | nil => exact absurd hm (hne i hi)
    | cons m0 ms =>
      unfold lagAdder
      rw [hm]
      rfl

/-- Length of each summand. -/
theorem lagAdder_length (points : List Point) (i : ℕ) (hi : i < points.length)
    (hn : 2 ≤ points.length) : (lagAdder points i).length = points.length := by
  cases hm : lagMultipliers points i with
  | nil =>
    have := lagMultipliers_length points i hi
    rw [hm] at this
    simp at this
    omega
  | cons m0 ms =>
    unfold lagAdder
    rw [hm]
    show ((ms.foldl PolyDense.multiply m0).map _).length = _
    rw [List.length_map]
    rw [foldl_multiply_length ms m0
      (fun m hmem => lagMultipliers_mem_length points i m (hm ▸ List.mem_cons_of_mem m0 hmem))]
    have h0 : m0.length = 2 := lagMultipliers_mem_length points i m0 (hm ▸ List.mem_cons_self m0 ms)
    have hlen := lagMultipliers_length points i hi
    rw [hm] at hlen
    simp only [List.length_cons] at hlen
    omega

/-- The factor for index `j` denotes the Lagrange basis divisor. -/
theorem pair_eq_basisDivisor (xi xj : ℚ) :
    Polynomial.C ((-1 : ℚ) * xj * ((1 : ℚ) / (xi - xj)))
        + Polynomial.C ((1 : ℚ) / (xi - xj)) * Polynomial.X
      = Lagrange.basisDivisor xi xj := by
  have harg : (-1 : ℚ) * xj * ((1 : ℚ) / (xi - xj)) = -((xi - xj)⁻¹ * xj) := by
    rw [one_div]
    ring
  rw [harg, one_div, map_neg, map_mul]
  unfold Lagrange.basisDivisor
  ring

/-- Each summand denotes C(y_i) times the Lagrange basis polynomial. -/
theorem lagAdder_poly (points : List Point) (i : ℕ) (hi : i < points.length)
    (hn : 2 ≤ points.length) :
    coeffsPoly (lagAdder points i)
      = Polynomial.C (points.getD i (0, 0)).2 *
          Lagrange.basis (Finset.range points.length)
            (fun j : ℕ => (points.getD j (0, 0)).1) i := by
  cases hm : lagMultipliers points i with
  | nil =>
    exfalso
    have hl := lagMultipliers_length points i hi
    rw [hm] at hl
    simp at hl
    omega
  | cons m0 ms =>
    unfold lagAdder
    rw [hm]
    show coeffsPoly ((ms.foldl PolyDense.multiply m0).map _) = _
    rw [show ((ms.foldl PolyDense.multiply m0).map
        (fun coefficient => coefficient * (points.getD i (0, 0)).2))
      = PolyDense.multiplyWithRealNumber (ms.foldl PolyDense.multiply m0)
          (points.getD i (0, 0)).2 from rfl]
    rw [coeffsPoly_mulReal, foldl_multiply_coeffsPoly]
    have hprod : coeffsPoly m0 * (ms.map coeffsPoly).prod
        = ((lagMultipliers points i).map coeffsPoly).prod := by
      rw [hm, List.map_cons, List.prod_cons]
    rw [hprod]
    have hmap : (lagMultipliers points i).map coeffsPoly
        = ((List.range points.length).filter (fun j => j ≠ i)).map
            (fun j => Lagrange.basisDivisor (points.getD i (0, 0)).1 (points.getD j (0, 0)).1) := by
      unfold lagMultipliers
      rw [List.map_map]
      refine List.map_congr_left (fun j _ => ?_)
      show coeffsPoly [_, _] = _
      rw [coeffsPoly_pair, pair_eq_basisDivisor]
    rw [hmap, filter_range_prod_erase]
    rw [Lagrange.basis]
    ring

/-- For at least two points, `interpolate` succeeds with a coefficient
list of the same length as the point list denoting the Lagrange
interpolation polynomial. -/
theorem interpolate_lagrange (points : List Point) (hn : 2 ≤ points.length) :
    ∃ L : List ℚ, interpolate points = some L ∧ L.length = points.length ∧
      coeffsPoly L = (Lagrange.interpolate (Finset.range points.length)
        (fun i : ℕ => (points.getD i (0, 0)).1)) (fun i : ℕ => (points.getD i (0, 0)).2) := by
  have hne : ∀ i ∈ List.range points.length, lagMultipliers points i ≠ [] := by
    intro i hi hnil
    have hl := lagMultipliers_length points i (List.mem_range.mp hi)
    rw [hnil] at hl
    simp at hl
    omega
  rw [interpolate_eq_adders points hne]
  cases hA : (List.range points.length).map (lagAdder points) with
  | nil =>
    exfalso
    have hlen : points.length = 0 := by
      have h0 := congrArg List.length hA
      simpa using h0
    omega
  | cons a0 arest =>
    refine ⟨arest.foldl PolyDense.add a0, rfl, ?_, ?_⟩
    · have hmem : ∀ l ∈ a0 :: arest, l.length = points.length := by
        rw [← hA]
        intro l hl
        obtain ⟨i, hi, hil⟩ := List.mem_map.mp hl
        rw [← hil]
        exact lagAdder_length points i (List.mem_range.mp hi) hn
      have ha0 : a0.length = points.length := hmem a0 (List.mem_cons_self _ _)
      rw [foldl_add_length arest a0
        (fun l hl => by rw [ha0]; exact hmem l (List.mem_cons_of_mem _ hl))]
      exact ha0
    · rw [foldl_add_coeffsPoly]
      have hsum : coeffsPoly a0 + (arest.map coeffsPoly).sum
          = ((a0 :: arest).map coeffsPoly).sum := by
        rw [List.map_cons, List.sum_cons]
      rw [hsum, ← hA, List.map_map,
        range_map_sum (coeffsPoly ∘ lagAdder points) points.length,
        Lagrange.interpolate_apply]
      refine Finset.sum_congr rfl (fun i hi => ?_)
      exact lagAdder_poly points i (Finset.mem_range.mp hi) hn

/-- Sum of an index-aware map, as a range sum. -/
theorem mapIdx_pair_sum (x : ℚ) (l : List ℚ) : ∀ h : ℕ → ℕ,
    ((l.mapIdx (fun i q => ((q : ℚ), h i))).map (fun cp => cp.1 * x ^ cp.2)).sum
      = ∑ j ∈ Finset.range l.length, l.getD j 0 * x ^ (h j) := by
  induction l with
  | nil => intro h; simp
  | cons a t ih =>
    intro h
    rw [List.mapIdx_cons, List.map_cons, List.sum_cons, ih (fun i => h (i + 1)),
      List.length_cons, Finset.sum_range_succ']
    simp only [List.getD_cons_succ, List.getD_cons_zero]
    ring

/-- The sparse polynomial that `encode` builds evaluates like the
polynomial denoted by the code list. -/
theorem evaluate_encode_poly (codes : List ℚ) (x : ℚ) :
    PolySparse.evaluate (PolySparse.newPolynomialFromPairs
      (codes.mapIdx (fun index rational => (rational, index)))) x
      = (coeffsPoly codes).eval x := by
  have hid : PolySparse.newPolynomialFromPairs
      (codes.mapIdx (fun index rational => (rational, index)))
      = codes.mapIdx (fun index rational => (rational, index)) := by
    unfold PolySparse.newPolynomialFromPairs toRational
    rw [show (fun cp : ℚ × ℕ => (cp.1, cp.2)) = id from funext fun cp => rfl, List.map_id]
  rw [hid]
  unfold PolySparse.evaluate
  rw [coeffsPoly_eval, horner_foldr_eq_sum]
  exact mapIdx_pair_sum x codes (fun i => i)

/-- C2 (amended): for every secret of 2 to 6 character codes and every
stream of pairwise-distinct random draws (one per character),
decode(encode(s)) returns exactly s. -/
theorem C2_roundtrip_amended (secret : List ℕ) (draws : List ℚ) (pts : List Point)
    (h2 : 2 ≤ secret.length) (h6 : secret.length ≤ 6)
    (hcodes : ∀ c ∈ secret, c < 65536)
    (hdlen : secret.length ≤ draws.length)
    (hnd : (draws.take secret.length).Nodup)
    (henc : encode secret draws = some pts) :
    decode pts = some secret := by
  simp only [encode] at henc
  rw [if_neg (by omega)] at henc
  have hcount : (((secret.map (fun c : ℕ => ((c : ℤ) : ℚ))).length : ℤ) - 1 + 1).toNat
      = secret.length := by
    simp only [List.length_map]
    omega
  rw [hcount] at henc
  have hpts : pts = (draws.take secret.length).map
      (fun r => (r, PolySparse.evaluate (PolySparse.newPolynomialFromPairs
        ((secret.map (fun c : ℕ => ((c : ℤ) : ℚ))).mapIdx
          (fun index rational => (rational, index)))) r)) :=
    (Option.some.inj henc).symm
  have hdtlen : (draws.take secret.length).length = secret.length := by
    rw [List.length_take]
    omega
  have hptslen : pts.length = secret.length := by
    rw [hpts, List.length_map]
    exact hdtlen
  obtain ⟨L, hL, hLlen, hLpoly⟩ := interpolate_lagrange pts (by omega)
  have hgetD : ∀ i, i < pts.length → pts.getD i (0, 0)
      = ((draws.take secret.length).getD i 0,
         PolySparse.evaluate (PolySparse.newPolynomialFromPairs
          ((secret.map (fun c : ℕ => ((c : ℤ) : ℚ))).mapIdx
            (fun index rational => (rational, index)))) ((draws.take secret.length).getD i 0)) := by
    intro i hi
    rw [hpts]
    exact getD_map _ _ i (by rw [hdtlen, ← hptslen]; exact hi) 0 (0, 0)
  have hq : coeffsPoly (secret.map (fun c : ℕ => ((c : ℤ) : ℚ)))
      = (Lagrange.interpolate (Finset.range pts.length)
          (fun i : ℕ => (pts.getD i (0, 0)).1)) (fun i : ℕ => (pts.getD i (0, 0)).2) := by
    refine Lagrange.eq_interpolate_of_eval_eq _ ?_ ?_ ?_
    · intro a ha b hb hab
      by_contra hne
      have ha' : a < pts.length := by simpa using ha
      have hb' : b < pts.length := by simpa using hb
      have hxa : (pts.getD a (0, 0)).1 = (draws.take secret.length).getD a 0 := by
        rw [hgetD a ha']
      have hxb : (pts.getD b (0, 0)).1 = (draws.take secret.length).getD b 0 := by
        rw [hgetD b hb']
      simp only [] at hab
      rw [hxa, hxb] at hab
      exact @nodup_getD_ne ℚ 0 _ hnd _ _
        (by rw [hdtlen, ← hptslen]; exact ha') (by rw [hdtlen, ← hptslen]; exact hb') hne hab
    · rw [Finset.card_range]
      refine lt_of_lt_of_le (coeffsPoly_degree_lt _) ?_
      have : (secret.map (fun c : ℕ => ((c : ℤ) : ℚ))).length = pts.length := by
        rw [List.length_map, hptslen]
      exact_mod_cast Nat.cast_le.mpr (le_of_eq this)
    · intro i hi
      have hi' := Finset.mem_range.mp hi
      rw [hgetD i hi']
      exact (evaluate_encode_poly _ _).symm
  have hpoly_eq : coeffsPoly L = coeffsPoly (secret.map (fun c : ℕ => ((c : ℤ) : ℚ))) := by
    rw [hLpoly, hq]
  have hLcodes : L = secret.map (fun c : ℕ => ((c : ℤ) : ℚ)) := by
    refine List.ext_getElem ?_ ?_
    · rw [hLlen, hptslen, List.length_map]
    · intro k hk1 hk2
      have hco := congrArg (fun p => Polynomial.coeff p k) hpoly_eq
      simp only at hco
      rw [coeffsPoly_coeff, coeffsPoly_coeff] at hco
      rw [List.getD_eq_getElem _ _ hk1, List.getD_eq_getElem _ _ hk2] at hco
      exact hco
  rw [decode, hL]
  show some _ = some _
  congr 1
  show List.map charOfCoefficient L = secret
  rw [hLcodes, List.map_map]
  have hid : ∀ c ∈ secret, (charOfCoefficient ∘ fun c : ℕ => ((c : ℤ) : ℚ)) c = c := by
    intro c hc
    show charOfCoefficient ((c : ℤ) : ℚ) = c
    unfold charOfCoefficient
    rw [Rat.num_intCast]
    rw [Int.emod_eq_of_lt (by exact_mod_cast Nat.zero_le c) (by exact_mod_cast hcodes c hc)]
    exact Int.toNat_natCast c
  rw [List.map_congr_left hid]
  exact List.map_id secret

/-- C2 (counterexample to the claim as stated): a one-character secret
is allowed by the claim (length ≤ 6), but decode then interpolates a
single point, and the reduce over the empty factor list throws, so the
round trip fails instead of returning the secret. -/
theorem C2_counterexample :
    encode [97] [5] = some [((5 : ℚ), (97 : ℚ))]
    ∧ decode [((5 : ℚ), (97 : ℚ))] = none := by
  constructor
  · simp only [encode]
    norm_num [PolySparse.newPolynomialFromPairs, PolySparse.evaluate, toRational,
      List.mapIdx_cons]
  · simp only [decode, interpolate, optionList]
    norm_num [reduce1, List.range_succ, List.filter]

/-- Witness for C2: the secret "Hi" (code units 72, 105) encoded with
the distinct draws 3, 5 gives the points (3, 387), (5, 597), and decode
recovers exactly [72, 105]. -/
theorem C2_witness :
    decode [((3 : ℚ), (387 : ℚ)), ((5 : ℚ), (597 : ℚ))] = some [72, 105] :=
  C2_roundtrip_amended [72, 105] [3, 5] [((3 : ℚ), (387 : ℚ)), ((5 : ℚ), (597 : ℚ))]
    (by norm_num) (by norm_num) (by decide) (by norm_num) (by decide)
    (by
      simp only [encode]
      norm_num [PolySparse.newPolynomialFromPairs, PolySparse.evaluate, toRational,
        List.mapIdx_cons])
